import Mathlib

/-!
Verification development for the rungrade-backend binning / analysis engine.

JavaScript numbers are modelled as exact rationals (`ℚ`); IEEE-754 rounding is
not modelled, and decimal literals of the source are read as exact rationals.
Nullable JS values are modelled with `Option`; a JS computation that can yield
`NaN` is modelled as `Option` with `none` for `NaN`.  The haversine distance
(`Math.sin`/`Math.cos`/`Math.atan2`, transcendental) is abstracted as a
parameter `dist : Point → Point → ℚ` of the binning engine; every theorem is
proved for an arbitrary such function, hence in particular for the haversine.
-/

namespace RunGrade

/-- Model of a JS `time` field: `null`, an invalid `Date`, or a valid `Date`
holding an epoch-millisecond value.  Both `Date` forms are truthy in JS. -/
inductive JSDate where
  | nullv : JSDate
  | invalid : JSDate
  | valid (ms : ℤ) : JSDate
deriving DecidableEq, Repr

/-- JS truthiness of a `time` field: `null` is falsy, any `Date` object
(valid or not) is truthy. -/
def JSDate.truthy : JSDate → Bool
  | .nullv => false
  | _ => true

/-- `(new Date(e) - new Date(s)) / 1000`: defined (in seconds) when both dates
are valid; `none` models the `NaN` produced when either date is invalid. -/
def dateDiffSec : JSDate → JSDate → Option ℚ
  | .valid s, .valid e => some (((e : ℚ) - (s : ℚ)) / 1000)
  | _, _ => none

/-- A normalized GPS trackpoint as consumed by `getAnalysisBins`. -/
structure Point where
  lat : ℚ
  lon : ℚ
  ele : ℚ
  time : JSDate
  heartRate : Option ℚ
deriving DecidableEq, Repr

/-- Default point used to model JS out-of-range array access (never reached on
the in-range accesses the code performs). -/
def pdefault : Point := ⟨0, 0, 0, .nullv, none⟩

/-- `Math.max(-35, Math.min(35, g))`. -/
def clamp35 (g : ℚ) : ℚ := max (-35) (min 35 g)

/-- `calculateGradeAdjustment` from `Coefficients.js`: the default quadratic
grade-adjustment model, clamped input, output floored at 0.3, no upper cap. -/
def calculateGradeAdjustment (gradientPercent : ℚ) : ℚ :=
  let clampedGradient := clamp35 gradientPercent
  max (3/10) (1 + clampedGradient * (33/1000) +
    clampedGradient * clampedGradient * (233/1000000))

/-- The quartic literature polynomial `a·c⁴ + b·c³ + c₂·c² + d·c + e` used for
supplied five-element coefficient arrays. -/
def quarticAdj (co : ℚ × ℚ × ℚ × ℚ × ℚ) (c : ℚ) : ℚ :=
  co.1 * c ^ 4 + co.2.1 * c ^ 3 + co.2.2.1 * c ^ 2 + co.2.2.2.1 * c + co.2.2.2.2

/-- JS `Math.round`: round half toward positive infinity. -/
def jsRound (x : ℚ) : ℤ := ⌊x + 1 / 2⌋

/-- `Number(x.toFixed(2))`: round to 2 decimal places, halves toward `+∞`. -/
def jsToFixed2 (x : ℚ) : ℚ := (⌊x * 100 + 1 / 2⌋ : ℚ) / 100

/-- `parseFloat(x.toFixed(4))`: round to 4 decimal places, halves toward `+∞`. -/
def jsToFixed4 (x : ℚ) : ℚ := (⌊x * 10000 + 1 / 2⌋ : ℚ) / 10000

/-- A distance bin as pushed by `getAnalysisBins`.  `timeTaken` stores the
seconds value passed to `formatTime` (the `hh:mm:ss` string rendering is
elided); `none` models the JS `null`. -/
structure Bin where
  distance : ℚ
  elevationChange : ℚ
  gradient : ℚ
  timeTaken : Option ℚ
  timeInSeconds : ℚ
  velocity : Option ℚ
  pace_min_per_km : Option ℚ
  adjustedTime : ℚ
  gradeAdjustedDistance : Option ℚ
  startIdx : ℕ
  endIdx : ℕ
  startTime : JSDate
  endTime : JSDate
  avgHeartRate : Option ℤ
  maxHeartRate : Option ℚ
  minHeartRate : Option ℚ
  heartRateDataPoints : ℕ
deriving DecidableEq, Repr

/-- Default bin (models out-of-range array access, never reached in range). -/
def bdefault : Bin :=
  ⟨0, 0, 0, none, 0, none, none, 0, none, 0, 0, .nullv, .nullv, none, none, none, 0⟩

/-- Heart rates collected from the points of a bin:
`if (points[j].heartRate && typeof points[j].heartRate === 'number')` —
a heart rate of `0` is falsy in JS and is skipped exactly like `null`. -/
def collectHeartRates (slice : List Point) : List ℚ :=
  slice.filterMap fun p =>
    match p.heartRate with
    | some v => if v ≠ 0 then some v else none
    | none => none

/-- Maximum of a list as `Math.max(...hrs)` on a nonempty list. -/
def listMax : List ℚ → Option ℚ
  | [] => none
  | h :: t => some (t.foldl max h)

/-- Minimum of a list as `Math.min(...hrs)` on a nonempty list. -/
def listMin : List ℚ → Option ℚ
  | [] => none
  | h :: t => some (t.foldl min h)

/-- The time-based fields of a bin: `null` (and `timeInSeconds = 0`) unless
both endpoints have truthy `time` and the elapsed seconds are a number `> 0`. -/
def binTimeSeconds (startT endT : JSDate) : Option ℚ :=
  if startT.truthy ∧ endT.truthy then
    match dateDiffSec startT endT with
    | some seconds => if seconds > 0 then some seconds else none
    | none => none
  else none

/-- Construction of one bin from its endpoints, its inclusive point slice and
its accumulated distance — the body shared verbatim by the in-scan branch and
the final-remainder branch of `getAnalysisBins` (both revisions).
`useQuartic` selects the adjustment-factor expression used when five
polynomial coefficients are supplied: `true` evaluates the quartic polynomial
(both branches of `part_004` and the remainder branch of `part_003`), `false`
calls `calculateGradeAdjustment` (the in-scan branch of `part_003`, which
ignores the supplied coefficients). -/
def mkBin (binStart binEnd : Point) (slice : List Point) (startIdx endIdx : ℕ)
    (distance : ℚ) (polyCoeffs : Option (ℚ × ℚ × ℚ × ℚ × ℚ))
    (newAdjustedVelocity : Option ℚ) (useQuartic : Bool) : Bin :=
  let elevationChange := binEnd.ele - binStart.ele
  let gradient := if distance > 0 then elevationChange / distance * 100 else 0
  let t := binTimeSeconds binStart.time binEnd.time
  let velocity := t.map fun seconds => distance / seconds
  let pace := t.bind fun seconds =>
    if distance / seconds > 0 then some (1000 / (distance / seconds) / 60) else none
  let adjFactor : ℚ :=
    match polyCoeffs with
    | some co =>
        let clampedGradient := clamp35 gradient
        if useQuartic then quarticAdj co clampedGradient
        else calculateGradeAdjustment clampedGradient
    | none => 1
  let adjPair : Option (ℚ × ℚ) :=
    match newAdjustedVelocity with
    | some rv => if rv > 0 ∧ adjFactor > 0 then
        some ((distance * adjFactor) / rv, distance * adjFactor) else none
    | none => none
  let hrs := collectHeartRates slice
  { distance := distance
    elevationChange := jsToFixed2 elevationChange
    gradient := jsToFixed2 gradient
    timeTaken := t
    timeInSeconds := t.getD 0
    velocity := velocity
    pace_min_per_km := pace
    adjustedTime := (adjPair.map Prod.fst).getD 0
    gradeAdjustedDistance := adjPair.map Prod.snd
    startIdx := startIdx
    endIdx := endIdx
    startTime := binStart.time
    endTime := binEnd.time
    avgHeartRate := if hrs.length ≠ 0 then
        some (jsRound (hrs.sum / hrs.length)) else none
    maxHeartRate := listMax hrs
    minHeartRate := listMin hrs
    heartRateDataPoints := hrs.length }

/-- The scan loop of `getAnalysisBins`.  `i` is the index of `curr` in `pts`,
`rest` the points after `curr`, `lastBinIdx` the current bin-start index,
`cumDist` the accumulated distance and `acc` the bins closed so far.  Returns
the closed bins together with the final `lastBinIdx` and `cumDist`. -/
def binScanAux (dist : Point → Point → ℚ) (pts : List Point) (binLength : ℚ)
    (polyCoeffs : Option (ℚ × ℚ × ℚ × ℚ × ℚ)) (refV : Option ℚ)
    (useQuartic : Bool) :
    Point → List Point → ℕ → ℕ → ℚ → List Bin → List Bin × ℕ × ℚ
  | _, [], _, lastBinIdx, cumDist, acc => (acc, lastBinIdx, cumDist)
  | prev, curr :: rest, i, lastBinIdx, cumDist, acc =>
    let cumDist' := cumDist + dist prev curr
    if cumDist' ≥ binLength then
      let slice := (pts.drop lastBinIdx).take (i - lastBinIdx + 1)
      let b := mkBin (pts.getD lastBinIdx pdefault) curr slice lastBinIdx i
        cumDist' polyCoeffs refV useQuartic
      binScanAux dist pts binLength polyCoeffs refV useQuartic
        curr rest (i + 1) i 0 (acc ++ [b])
    else
      binScanAux dist pts binLength polyCoeffs refV useQuartic
        curr rest (i + 1) lastBinIdx cumDist' acc

/-- `getAnalysisBins(points, binLength, polyCoeffs, newAdjustedVelocity)`,
parameterized by the segment-distance function `dist` (the haversine in the
source) and by `useQuartic` (which of the two repository revisions of the
in-scan adjustment-factor expression is used; the remainder bin evaluates the
quartic in both revisions).  Returns `[]` for fewer than two points. -/
def getAnalysisBins (dist : Point → Point → ℚ) (pts : List Point)
    (binLength : ℚ) (polyCoeffs : Option (ℚ × ℚ × ℚ × ℚ × ℚ))
    (refV : Option ℚ) (useQuartic : Bool) : List Bin :=
  match pts with
  | p0 :: p1 :: rest =>
    let r := binScanAux dist pts binLength polyCoeffs refV useQuartic
      p0 (p1 :: rest) 1 0 0 []
    let acc := r.1
    let lastBinIdx := r.2.1
    let cumDist := r.2.2
    let n := pts.length
    if lastBinIdx < n - 1 ∧ cumDist > 0 then
      acc ++ [mkBin (pts.getD lastBinIdx pdefault) (pts.getD (n - 1) pdefault)
        (pts.drop lastBinIdx) lastBinIdx (n - 1) cumDist polyCoeffs refV true]
    else acc
  | _ => []

/-- The `part_003` revision of `getAnalysisBins`: in-scan bins compute their
adjustment factor with `calculateGradeAdjustment`, ignoring `polyCoeffs`. -/
def getAnalysisBins_v3 (dist : Point → Point → ℚ) (pts : List Point)
    (binLength : ℚ) (polyCoeffs : Option (ℚ × ℚ × ℚ × ℚ × ℚ))
    (refV : Option ℚ) : List Bin :=
  getAnalysisBins dist pts binLength polyCoeffs refV false

/-- The `part_004` revision of `getAnalysisBins`: both branches evaluate the
quartic polynomial of the supplied coefficients. -/
def getAnalysisBins_v4 (dist : Point → Point → ℚ) (pts : List Point)
    (binLength : ℚ) (polyCoeffs : Option (ℚ × ℚ × ℚ × ℚ × ℚ))
    (refV : Option ℚ) : List Bin :=
  getAnalysisBins dist pts binLength polyCoeffs refV true

/-- `IndexChain s bins e`: the bins' inclusive index ranges chain from `s` to
`e`, each bin starting where the previous one ended (the shared-boundary
covering that `getAnalysisBins` actually produces), with `startIdx < endIdx`
for every bin. -/
def IndexChain : ℕ → List Bin → ℕ → Prop
  | s, [], e => s = e
  | s, b :: bs, e => b.startIdx = s ∧ s < b.endIdx ∧ IndexChain b.endIdx bs e

/-- Boolean version of `IndexChain`. -/
def indexChainB : ℕ → List Bin → ℕ → Bool
  | s, [], e => s == e
  | s, b :: bs, e => b.startIdx == s && decide (s < b.endIdx) && indexChainB b.endIdx bs e

theorem indexChain_iff_indexChainB :
    ∀ (s : ℕ) (l : List Bin) (e : ℕ), IndexChain s l e ↔ indexChainB s l e = true := by
  intro s l e
  induction l generalizing s with
  | nil => simp [IndexChain, indexChainB]
  | cons b bs ih => simp [IndexChain, indexChainB, ih, and_assoc]

instance (s : ℕ) (l : List Bin) (e : ℕ) : Decidable (IndexChain s l e) :=
  decidable_of_iff _ (indexChain_iff_indexChainB s l e).symm

/-- `DisjointChain s bins e`: the bins' inclusive index ranges, concatenated
in order, are contiguous and pairwise disjoint and exactly cover `[s, e]`
(each next bin starts one past the previous end) — the reading of claim C1. -/
def DisjointChain : ℕ → List Bin → ℕ → Prop
  | s, [], e => s = e + 1
  | s, b :: bs, e => b.startIdx = s ∧ s ≤ b.endIdx ∧ DisjointChain (b.endIdx + 1) bs e

/-- Boolean version of `DisjointChain`. -/
def disjointChainB : ℕ → List Bin → ℕ → Bool
  | s, [], e => s == e + 1
  | s, b :: bs, e => b.startIdx == s && decide (s ≤ b.endIdx) && disjointChainB (b.endIdx + 1) bs e

theorem disjointChain_iff_disjointChainB :
    ∀ (s : ℕ) (l : List Bin) (e : ℕ), DisjointChain s l e ↔ disjointChainB s l e = true := by
  intro s l e
  induction l generalizing s with
  | nil => simp [DisjointChain, disjointChainB]
  | cons b bs ih => simp [DisjointChain, disjointChainB, ih, and_assoc]

instance (s : ℕ) (l : List Bin) (e : ℕ) : Decidable (DisjointChain s l e) :=
  decidable_of_iff _ (disjointChain_iff_disjointChainB s l e).symm

theorem IndexChain.append_singleton :
    ∀ {s e : ℕ} {acc : List Bin} {b : Bin}, IndexChain s acc e →
      b.startIdx = e → e < b.endIdx → IndexChain s (acc ++ [b]) b.endIdx := by
  intro s e acc
  induction acc generalizing s with
  | nil =>
    intro b hc hs hlt
    cases hc
    exact ⟨hs, hlt, rfl⟩
  | cons a as ih =>
    intro b hc hs hlt
    obtain ⟨h1, h2, h3⟩ := hc
    exact ⟨h1, h2, ih h3 hs hlt⟩

/-- Invariant of the scan loop: the closed bins chain from index `0` to the
current bin-start index, that index stays below `pts.length`, and — when the
accumulator is nonnegative and all consecutive-point distances are positive —
the loop ends with either a positive accumulator or a final close at the last
point. -/
theorem binScanAux_invariant (dist : Point → Point → ℚ) (pts : List Point)
    (binLength : ℚ) (co : Option (ℚ × ℚ × ℚ × ℚ × ℚ)) (rv : Option ℚ)
    (uq : Bool) :
    ∀ (l : List Point) (prev : Point) (i lastBinIdx : ℕ) (cumDist : ℚ)
      (acc : List Bin),
      IndexChain 0 acc lastBinIdx → lastBinIdx < i →
      lastBinIdx ≤ pts.length - 1 → pts.drop i = l →
      prev = pts.getD (i - 1) pdefault → 1 ≤ i →
      (IndexChain 0
          (binScanAux dist pts binLength co rv uq prev l i lastBinIdx cumDist acc).1
          (binScanAux dist pts binLength co rv uq prev l i lastBinIdx cumDist acc).2.1
        ∧ (binScanAux dist pts binLength co rv uq prev l i lastBinIdx cumDist acc).2.1
            ≤ pts.length - 1
        ∧ ((0 ≤ cumDist ∧
              (∀ j, j + 1 < pts.length →
                0 < dist (pts.getD j pdefault) (pts.getD (j + 1) pdefault)) ∧
              l ≠ []) →
            0 < (binScanAux dist pts binLength co rv uq prev l i lastBinIdx cumDist acc).2.2
              ∨ (binScanAux dist pts binLength co rv uq prev l i lastBinIdx cumDist acc).2.1
                  = pts.length - 1)) := by
  intro l
  induction l with
  | nil =>
    intro prev i lastBinIdx cumDist acc hacc _ hb _ _ _
    refine ⟨hacc, hb, ?_⟩
    rintro ⟨-, -, hne⟩
    exact absurd rfl hne
  | cons curr rest ih =>
    intro prev i lastBinIdx cumDist acc hacc hlt hb hdrop hprev hi
    have hi_lt : i < pts.length := by
      by_contra hge
      rw [List.drop_eq_nil_of_le (Nat.le_of_not_lt hge)] at hdrop
      exact List.cons_ne_nil curr rest hdrop.symm
    have hdrop' : pts.drop (i + 1) = rest := by
      have := congrArg (List.drop 1) hdrop
      simpa [List.drop_drop, Nat.add_comm] using this
    have hcurr : pts.getD i pdefault = curr := by
      have : (pts.drop i).getD 0 pdefault = curr := by rw [hdrop]; rfl
      simpa [List.getD, List.getElem?_drop] using this
    simp only [binScanAux]
    by_cases hclose : cumDist + dist prev curr ≥ binLength
    · simp only [if_pos hclose]
      have hchain' : IndexChain 0
          (acc ++ [mkBin (pts.getD lastBinIdx pdefault) curr
            ((pts.drop lastBinIdx).take (i - lastBinIdx + 1)) lastBinIdx i
            (cumDist + dist prev curr) co rv uq]) i :=
        IndexChain.append_singleton hacc rfl hlt
      have := ih curr (i + 1) i 0
        (acc ++ [mkBin (pts.getD lastBinIdx pdefault) curr
          ((pts.drop lastBinIdx).take (i - lastBinIdx + 1)) lastBinIdx i
          (cumDist + dist prev curr) co rv uq])
        hchain' (Nat.lt_succ_self i) (Nat.le_sub_one_of_lt hi_lt) hdrop'
        (by simpa using hcurr.symm) (Nat.le_succ_of_le hi)
      refine ⟨this.1, this.2.1, ?_⟩
      rintro ⟨-, hpos, -⟩
      rcases rest with - | ⟨r0, rrest⟩
      · -- the loop ends right after this close: the close was at the last index
        have hlen : pts.length = i + 1 := by
          have h1 : pts.length - (i + 1) = 0 := by
            rw [← List.length_drop, hdrop']; rfl
          omega
        simp only [binScanAux]
        right
        omega
      · exact this.2.2 ⟨le_refl 0, hpos, List.cons_ne_nil r0 rrest⟩
    · simp only [if_neg hclose]
      have := ih curr (i + 1) lastBinIdx (cumDist + dist prev curr) acc
        hacc (Nat.lt_succ_of_lt hlt) hb hdrop'
        (by simpa using hcurr.symm) (Nat.le_succ_of_le hi)
      refine ⟨this.1, this.2.1, ?_⟩
      rintro ⟨hc0, hpos, -⟩
      have hd : 0 < dist prev curr := by
        have hj : (i - 1) + 1 < pts.length := by omega
        have := hpos (i - 1) hj
        rw [← hprev] at this
        have hi1 : (i - 1) + 1 = i := by omega
        rw [hi1, hcurr] at this
        exact this
      rcases rest with - | ⟨r0, rrest⟩
      · simp only [binScanAux]
        left
        linarith
      · exact this.2.2 ⟨by linarith, hpos, List.cons_ne_nil r0 rrest⟩

/-- Constant segment-distance function, used to instantiate the abstract
distance parameter on concrete test inputs. -/
def constDist (q : ℚ) : Point → Point → ℚ := fun _ _ => q

/-- Concrete timestampless test point at longitude `lon`, elevation `ele`. -/
def tp (lon ele : ℚ) : Point := ⟨0, lon, ele, .nullv, none⟩

/-- Claim C1 as stated: for every point sequence of at least two points the
bins' inclusive index ranges, concatenated in order, partition `[0, n-1]`
with no gaps and no overlaps (consecutive ranges contiguous and disjoint). -/
def ClaimC1 : Prop :=
  ∀ (dist : Point → Point → ℚ) (pts : List Point) (binLength : ℚ)
    (co : Option (ℚ × ℚ × ℚ × ℚ × ℚ)) (rv : Option ℚ) (uq : Bool),
    2 ≤ pts.length →
    DisjointChain 0 (getAnalysisBins dist pts binLength co rv uq) (pts.length - 1)

/-- Claim C1 is false on the code: with two 60 m segments and the default
50 m bin length the bins are `[0,1]` and `[1,2]`, whose inclusive ranges
share index 1 (consecutive bins are contiguous but not disjoint); moreover a
sequence of two coincident points (haversine distance 0, as for any equal
coordinates) produces no bins at all, so nothing covers `[0, n-1]`. -/
theorem C1_counterexample :
    ¬ ClaimC1 ∧
      getAnalysisBins (constDist 0) [tp 0 0, tp 0 0] 50 none none true = [] := by
  constructor
  · intro h
    have h3 := h (constDist 60) [tp 0 0, tp 1 10, tp 2 20] 50 none none true
      (by decide)
    have hmap : ((getAnalysisBins (constDist 60) [tp 0 0, tp 1 10, tp 2 20]
        50 none none true).map fun b => (b.startIdx, b.endIdx)) =
        [(0, 1), (1, 2)] := by
      norm_num [getAnalysisBins, binScanAux, mkBin, constDist, tp]
    rcases hl : getAnalysisBins (constDist 60) [tp 0 0, tp 1 10, tp 2 20]
        50 none none true with - | ⟨b1, l1⟩
    · rw [hl] at hmap
      simp at hmap
    · rcases l1 with - | ⟨b2, l2⟩
      · rw [hl] at hmap
        simp at hmap
      · rw [hl] at hmap h3
        simp only [List.map_cons, List.map_nil, List.cons.injEq,
          Prod.mk.injEq] at hmap
        rcases l2 with - | ⟨b3, l3⟩
        · obtain ⟨⟨-, he1⟩, ⟨hs2, -⟩, -⟩ := hmap
          obtain ⟨-, -, hs2', -, -⟩ := h3
          omega
        · simp at hmap
  · norm_num [getAnalysisBins, binScanAux, constDist, tp]

/-- Amended claim C1: for every segment-distance function and point sequence
of `n ≥ 2` points, the bins returned by `getAnalysisBins` chain from index 0:
the first bin starts at 0, each bin has `startIdx < endIdx`, and each
subsequent bin starts exactly at the previous bin's `endIdx` (consecutive
inclusive ranges share their boundary index — point slices overlap in exactly
one point).  The chain ends at some `e ≤ n - 1`; whenever every
consecutive-point distance is positive (for the haversine: whenever no two
consecutive points share coordinates) it ends exactly at `n - 1`, i.e. the
bins cover the whole sequence.  (When all trailing segment distances are 0
the tail is left uncovered, and an all-zero-distance sequence yields no
bins.) -/
theorem C1_amended (dist : Point → Point → ℚ) (pts : List Point)
    (binLength : ℚ) (co : Option (ℚ × ℚ × ℚ × ℚ × ℚ)) (rv : Option ℚ)
    (uq : Bool) (hn : 2 ≤ pts.length) :
    (∃ e, e ≤ pts.length - 1 ∧
        IndexChain 0 (getAnalysisBins dist pts binLength co rv uq) e)
    ∧ ((∀ j, j + 1 < pts.length →
          0 < dist (pts.getD j pdefault) (pts.getD (j + 1) pdefault)) →
        IndexChain 0 (getAnalysisBins dist pts binLength co rv uq)
          (pts.length - 1)) := by
  match pts, hn with
  | p0 :: p1 :: rest, _ =>
    have hinv := binScanAux_invariant dist (p0 :: p1 :: rest) binLength co rv uq
      (p1 :: rest) p0 1 0 0 [] rfl Nat.zero_lt_one (Nat.zero_le _) rfl rfl
      (le_refl 1)
    set r := binScanAux dist (p0 :: p1 :: rest) binLength co rv uq
      p0 (p1 :: rest) 1 0 0 [] with hr
    obtain ⟨hchain, hle, hcond⟩ := hinv
    show (∃ e, _ ∧ IndexChain 0 (getAnalysisBins dist (p0 :: p1 :: rest) binLength co rv uq) e) ∧ _
    have hbins : getAnalysisBins dist (p0 :: p1 :: rest) binLength co rv uq =
        if r.2.1 < (p0 :: p1 :: rest).length - 1 ∧ r.2.2 > 0 then
          r.1 ++ [mkBin ((p0 :: p1 :: rest).getD r.2.1 pdefault)
            ((p0 :: p1 :: rest).getD ((p0 :: p1 :: rest).length - 1) pdefault)
            ((p0 :: p1 :: rest).drop r.2.1) r.2.1
            ((p0 :: p1 :: rest).length - 1) r.2.2 co rv true]
        else r.1 := by
      simp only [getAnalysisBins, ← hr]
    constructor
    · by_cases hrem : r.2.1 < (p0 :: p1 :: rest).length - 1 ∧ r.2.2 > 0
      · refine ⟨(p0 :: p1 :: rest).length - 1, le_refl _, ?_⟩
        rw [hbins, if_pos hrem]
        exact IndexChain.append_singleton hchain rfl hrem.1
      · exact ⟨r.2.1, hle, by rw [hbins, if_neg hrem]; exact hchain⟩
    · intro hpos
      have hcase := hcond ⟨le_refl 0, hpos, List.cons_ne_nil p1 rest⟩
      by_cases hrem : r.2.1 < (p0 :: p1 :: rest).length - 1 ∧ r.2.2 > 0
      · rw [hbins, if_pos hrem]
        exact IndexChain.append_singleton hchain rfl hrem.1
      · rw [hbins, if_neg hrem]
        rcases hcase with hc | hc
        · have : ¬ r.2.1 < (p0 :: p1 :: rest).length - 1 := fun hlt =>
            hrem ⟨hlt, hc⟩
          have : r.2.1 = (p0 :: p1 :: rest).length - 1 := by omega
          rwa [this] at hchain
        · rwa [hc] at hchain

/-- Witness for `C1_amended` on a concrete input: three points, 60 m apart,
50 m bins give the full covering chain `[0,1], [1,2]`. -/
theorem C1_amended_witness :
    IndexChain 0
      (getAnalysisBins (constDist 60) [tp 0 0, tp 1 10, tp 2 20] 50 none none true)
      2 :=
  (C1_amended (constDist 60) [tp 0 0, tp 1 10, tp 2 20] 50 none none true
    (by decide)).2 (fun j _ => by norm_num [constDist])

/-- Claim C6's formula, written from the spec's words: factor(g) =
max(0.3, 1 + g·0.033 + g²·0.000233) with g clamped to [−35, 35] and no upper
cap. -/
def gradeAdjustmentSpec (g : ℚ) : ℚ :=
  let c := max (-35) (min g 35)
  max (3/10) (1 + c * (33/1000) + c ^ 2 * (233/1000000))

/-- Claim C6 (confirmed): `calculateGradeAdjustment` computes exactly the
spec's default quadratic grade-adjustment formula — clamp to [−35, 35],
floor the result at 0.3, apply no upper cap. -/
theorem C6_default_model_matches_spec :
    ∀ g : ℚ, calculateGradeAdjustment g = gradeAdjustmentSpec g := by
  intro g
  simp only [calculateGradeAdjustment, gradeAdjustmentSpec, clamp35, min_comm]
  ring_nf

/-- Bounds on the clamped gradient. -/
theorem clamp35_mem (g : ℚ) : -35 ≤ clamp35 g ∧ clamp35 g ≤ 35 := by
  unfold clamp35
  constructor
  · exact le_max_left _ _
  · exact max_le (by norm_num) (min_le_left _ _)

/-- Monotonicity of the clamp. -/
theorem clamp35_mono {g1 g2 : ℚ} (h : g1 ≤ g2) : clamp35 g1 ≤ clamp35 g2 :=
  max_le_max (le_refl _) (min_le_min (le_refl _) h)

/-- Claim C9 (confirmed): the default grade-adjustment function is
monotonically non-decreasing, and its value always lies in
[0.3, 2.440425] — the two bounds being exactly the values attained at the
clamp bounds −35 and 35. -/
theorem C9_default_model_monotone_bounded :
    (∀ g1 g2 : ℚ, g1 ≤ g2 →
        calculateGradeAdjustment g1 ≤ calculateGradeAdjustment g2)
    ∧ (∀ g : ℚ, 3/10 ≤ calculateGradeAdjustment g
        ∧ calculateGradeAdjustment g ≤ 2440425/1000000)
    ∧ calculateGradeAdjustment (-35) = 3/10
    ∧ calculateGradeAdjustment 35 = 2440425/1000000 := by
  have key : ∀ g1 g2 : ℚ, g1 ≤ g2 →
      calculateGradeAdjustment g1 ≤ calculateGradeAdjustment g2 := by
    intro g1 g2 h
    unfold calculateGradeAdjustment
    have hc := clamp35_mono h
    obtain ⟨hl1, hh1⟩ := clamp35_mem g1
    obtain ⟨hl2, hh2⟩ := clamp35_mem g2
    refine max_le_max (le_refl _) ?_
    nlinarith [mul_self_nonneg (clamp35 g2 - clamp35 g1)]
  have hub : ∀ g : ℚ, calculateGradeAdjustment g ≤ 2440425/1000000 := by
    intro g
    unfold calculateGradeAdjustment
    obtain ⟨hl, hh⟩ := clamp35_mem g
    exact max_le (by norm_num) (by nlinarith)
  refine ⟨key, fun g => ⟨le_max_left _ _, hub g⟩, ?_, ?_⟩
  · norm_num [calculateGradeAdjustment, clamp35]
  · norm_num [calculateGradeAdjustment, clamp35]

/-- Witness for `C9_default_model_monotone_bounded` at concrete inputs. -/
theorem C9_default_model_monotone_bounded_witness :
    calculateGradeAdjustment 0 ≤ calculateGradeAdjustment 10
    ∧ 3/10 ≤ calculateGradeAdjustment 100
    ∧ calculateGradeAdjustment 100 ≤ 2440425/1000000 :=
  ⟨C9_default_model_monotone_bounded.1 0 10 (by norm_num),
    (C9_default_model_monotone_bounded.2.1 100).1,
    (C9_default_model_monotone_bounded.2.1 100).2⟩

/-- Claim C7 (code bug in the `part_003` revision): with quartic coefficients
`(0,0,0,0,2)` (the constant polynomial 2) and reference velocity 1, a
two-point 100 m track at gradient 10 % closes one in-scan bin.  The claim
(and the `part_004` revision, and `part_003`'s own remainder branch) give
adjustment factor 2, hence `gradeAdjustedDistance = 200` and
`adjustedTime = 200`; the `part_003` in-scan branch instead calls
`calculateGradeAdjustment(10) = 1.3533`, ignoring the supplied coefficients,
and stores `135.33` for both. -/
theorem C7_code_bug_eval :
    ((getAnalysisBins_v3 (constDist 100) [tp 0 0, tp 1 10] 50
        (some (0, 0, 0, 0, 2)) (some 1)).map
      fun b => (b.gradeAdjustedDistance, b.adjustedTime)) =
        [(some (13533/100), 13533/100)]
    ∧ ((getAnalysisBins_v4 (constDist 100) [tp 0 0, tp 1 10] 50
        (some (0, 0, 0, 0, 2)) (some 1)).map
      fun b => (b.gradeAdjustedDistance, b.adjustedTime)) = [(some 200, 200)]
    ∧ calculateGradeAdjustment (clamp35 10) ≠ quarticAdj (0, 0, 0, 0, 2) (clamp35 10) := by
  refine ⟨?_, ?_, ?_⟩ <;>
    norm_num [getAnalysisBins_v3, getAnalysisBins_v4, getAnalysisBins,
      binScanAux, mkBin, quarticAdj, calculateGradeAdjustment, clamp35,
      constDist, tp]

theorem mkBin_startIdx (s e : Point) (sl : List Point) (i j : ℕ) (d : ℚ)
    (co : Option (ℚ × ℚ × ℚ × ℚ × ℚ)) (rv : Option ℚ) (u : Bool) :
    (mkBin s e sl i j d co rv u).startIdx = i := rfl

theorem mkBin_endIdx (s e : Point) (sl : List Point) (i j : ℕ) (d : ℚ)
    (co : Option (ℚ × ℚ × ℚ × ℚ × ℚ)) (rv : Option ℚ) (u : Bool) :
    (mkBin s e sl i j d co rv u).endIdx = j := rfl

theorem mkBin_startTime (s e : Point) (sl : List Point) (i j : ℕ) (d : ℚ)
    (co : Option (ℚ × ℚ × ℚ × ℚ × ℚ)) (rv : Option ℚ) (u : Bool) :
    (mkBin s e sl i j d co rv u).startTime = s.time := rfl

theorem mkBin_endTime (s e : Point) (sl : List Point) (i j : ℕ) (d : ℚ)
    (co : Option (ℚ × ℚ × ℚ × ℚ × ℚ)) (rv : Option ℚ) (u : Bool) :
    (mkBin s e sl i j d co rv u).endTime = e.time := rfl

theorem mkBin_timeTaken (s e : Point) (sl : List Point) (i j : ℕ) (d : ℚ)
    (co : Option (ℚ × ℚ × ℚ × ℚ × ℚ)) (rv : Option ℚ) (u : Bool) :
    (mkBin s e sl i j d co rv u).timeTaken = binTimeSeconds s.time e.time := rfl

theorem mkBin_timeInSeconds (s e : Point) (sl : List Point) (i j : ℕ) (d : ℚ)
    (co : Option (ℚ × ℚ × ℚ × ℚ × ℚ)) (rv : Option ℚ) (u : Bool) :
    (mkBin s e sl i j d co rv u).timeInSeconds
      = (binTimeSeconds s.time e.time).getD 0 := rfl

theorem mkBin_velocity (s e : Point) (sl : List Point) (i j : ℕ) (d : ℚ)
    (co : Option (ℚ × ℚ × ℚ × ℚ × ℚ)) (rv : Option ℚ) (u : Bool) :
    (mkBin s e sl i j d co rv u).velocity
      = (binTimeSeconds s.time e.time).map fun seconds => d / seconds := rfl

theorem mkBin_pace (s e : Point) (sl : List Point) (i j : ℕ) (d : ℚ)
    (co : Option (ℚ × ℚ × ℚ × ℚ × ℚ)) (rv : Option ℚ) (u : Bool) :
    (mkBin s e sl i j d co rv u).pace_min_per_km
      = (binTimeSeconds s.time e.time).bind fun seconds =>
          if d / seconds > 0 then some (1000 / (d / seconds) / 60) else none := rfl

theorem mkBin_avgHeartRate (s e : Point) (sl : List Point) (i j : ℕ) (d : ℚ)
    (co : Option (ℚ × ℚ × ℚ × ℚ × ℚ)) (rv : Option ℚ) (u : Bool) :
    (mkBin s e sl i j d co rv u).avgHeartRate
      = if (collectHeartRates sl).length ≠ 0 then
          some (jsRound ((collectHeartRates sl).sum / (collectHeartRates sl).length))
        else none := rfl

theorem mkBin_maxHeartRate (s e : Point) (sl : List Point) (i j : ℕ) (d : ℚ)
    (co : Option (ℚ × ℚ × ℚ × ℚ × ℚ)) (rv : Option ℚ) (u : Bool) :
    (mkBin s e sl i j d co rv u).maxHeartRate = listMax (collectHeartRates sl) := rfl

theorem mkBin_minHeartRate (s e : Point) (sl : List Point) (i j : ℕ) (d : ℚ)
    (co : Option (ℚ × ℚ × ℚ × ℚ × ℚ)) (rv : Option ℚ) (u : Bool) :
    (mkBin s e sl i j d co rv u).minHeartRate = listMin (collectHeartRates sl) := rfl

theorem mkBin_heartRateDataPoints (s e : Point) (sl : List Point) (i j : ℕ) (d : ℚ)
    (co : Option (ℚ × ℚ × ℚ × ℚ × ℚ)) (rv : Option ℚ) (u : Bool) :
    (mkBin s e sl i j d co rv u).heartRateDataPoints
      = (collectHeartRates sl).length := rfl

/-- Shape of every produced bin: it is `mkBin` applied to the endpoints at its
own indices, the inclusive point slice between them, some accumulated
distance, and the call's coefficient/velocity arguments. -/
def BinShape (pts : List Point) (co : Option (ℚ × ℚ × ℚ × ℚ × ℚ))
    (rv : Option ℚ) (b : Bin) : Prop :=
  ∃ (d : ℚ) (uq' : Bool),
    b = mkBin (pts.getD b.startIdx pdefault) (pts.getD b.endIdx pdefault)
      ((pts.drop b.startIdx).take (b.endIdx - b.startIdx + 1))
      b.startIdx b.endIdx d co rv uq'

theorem binScanAux_shape (dist : Point → Point → ℚ) (pts : List Point)
    (binLength : ℚ) (co : Option (ℚ × ℚ × ℚ × ℚ × ℚ)) (rv : Option ℚ)
    (uq : Bool) :
    ∀ (l : List Point) (prev : Point) (i lastBinIdx : ℕ) (cumDist : ℚ)
      (acc : List Bin),
      pts.drop i = l →
      (∀ b ∈ acc, BinShape pts co rv b) →
      ∀ b ∈ (binScanAux dist pts binLength co rv uq prev l i lastBinIdx
          cumDist acc).1, BinShape pts co rv b := by
  intro l
  induction l with
  | nil =>
    intro prev i lastBinIdx cumDist acc _ hacc b hb
    exact hacc b hb
  | cons curr rest ih =>
    intro prev i lastBinIdx cumDist acc hdrop hacc b hb
    have hi_lt : i < pts.length := by
      by_contra hge
      rw [List.drop_eq_nil_of_le (Nat.le_of_not_lt hge)] at hdrop
      exact List.cons_ne_nil curr rest hdrop.symm
    have hdrop' : pts.drop (i + 1) = rest := by
      have := congrArg (List.drop 1) hdrop
      simpa [List.drop_drop, Nat.add_comm] using this
    have hcurr : pts.getD i pdefault = curr := by
      have : (pts.drop i).getD 0 pdefault = curr := by rw [hdrop]; rfl
      simpa [List.getD, List.getElem?_drop] using this
    simp only [binScanAux] at hb
    by_cases hclose : cumDist + dist prev curr ≥ binLength
    · rw [if_pos hclose] at hb
      refine ih curr (i + 1) i 0 _ hdrop' ?_ b hb
      intro b' hb'
      rcases List.mem_append.mp hb' with h | h
      · exact hacc b' h
      · rcases List.mem_singleton.mp h with rfl
        refine ⟨cumDist + dist prev curr, uq, ?_⟩
        show mkBin (pts.getD lastBinIdx pdefault) curr
            ((pts.drop lastBinIdx).take (i - lastBinIdx + 1)) lastBinIdx i
            (cumDist + dist prev curr) co rv uq
          = mkBin (pts.getD lastBinIdx pdefault) (pts.getD i pdefault)
            ((pts.drop lastBinIdx).take (i - lastBinIdx + 1)) lastBinIdx i
            (cumDist + dist prev curr) co rv uq
        rw [hcurr]
    · rw [if_neg hclose] at hb
      exact ih curr (i + 1) lastBinIdx (cumDist + dist prev curr) acc hdrop'
        hacc b hb

theorem mem_getAnalysisBins_shape (dist : Point → Point → ℚ)
    (pts : List Point) (binLength : ℚ) (co : Option (ℚ × ℚ × ℚ × ℚ × ℚ))
    (rv : Option ℚ) (uq : Bool) :
    ∀ b ∈ getAnalysisBins dist pts binLength co rv uq, BinShape pts co rv b := by
  intro b hb
  match pts, hb with
  | p0 :: p1 :: rest, hb =>
    rw [getAnalysisBins] at hb
    set r := binScanAux dist (p0 :: p1 :: rest) binLength co rv uq
      p0 (p1 :: rest) 1 0 0 [] with hr
    have hscan := binScanAux_shape dist (p0 :: p1 :: rest) binLength co rv uq
      (p1 :: rest) p0 1 0 0 [] rfl (by intro b' hb'; cases hb')
    rw [← hr] at hscan
    by_cases hrem : r.2.1 < (p0 :: p1 :: rest).length - 1 ∧ r.2.2 > 0
    · rw [if_pos hrem] at hb
      rcases List.mem_append.mp hb with h | h
      · exact hscan b h
      · rcases List.mem_singleton.mp h with rfl
        have hn1 : r.2.1 ≤ (p0 :: p1 :: rest).length := by
          have := hrem.1
          omega
        have htake : ((p0 :: p1 :: rest).drop r.2.1).take
            (((p0 :: p1 :: rest).length - 1) - r.2.1 + 1)
            = (p0 :: p1 :: rest).drop r.2.1 := by
          apply List.take_of_length_le
          rw [List.length_drop]
          have := hrem.1
          omega
        refine ⟨r.2.2, true, ?_⟩
        show mkBin ((p0 :: p1 :: rest).getD r.2.1 pdefault)
            ((p0 :: p1 :: rest).getD ((p0 :: p1 :: rest).length - 1) pdefault)
            ((p0 :: p1 :: rest).drop r.2.1) r.2.1
            ((p0 :: p1 :: rest).length - 1) r.2.2 co rv true
          = mkBin ((p0 :: p1 :: rest).getD r.2.1 pdefault)
            ((p0 :: p1 :: rest).getD ((p0 :: p1 :: rest).length - 1) pdefault)
            (((p0 :: p1 :: rest).drop r.2.1).take
              (((p0 :: p1 :: rest).length - 1) - r.2.1 + 1)) r.2.1
            ((p0 :: p1 :: rest).length - 1) r.2.2 co rv true
        rw [htake]
    · rw [if_neg hrem] at hb
      exact hscan b hb

/-- Claim C2 as stated: when a bin's endpoints do not admit a valid, finite,
positive elapsed time (`binTimeSeconds = none` is exactly that guard), the
bin's duration, velocity and pace are all left unset and never coerced to 0 —
for the numeric duration field `timeInSeconds`, "never coerced to 0" reads
`timeInSeconds ≠ 0` (the field is always present on the produced bin). -/
def ClaimC2 : Prop :=
  ∀ (dist : Point → Point → ℚ) (pts : List Point) (binLength : ℚ)
    (co : Option (ℚ × ℚ × ℚ × ℚ × ℚ)) (rv : Option ℚ) (uq : Bool),
    ∀ b ∈ getAnalysisBins dist pts binLength co rv uq,
      binTimeSeconds b.startTime b.endTime = none →
      b.timeTaken = none ∧ b.velocity = none ∧ b.pace_min_per_km = none
        ∧ b.timeInSeconds ≠ 0

/-- Claim C2 is false on the code: a 60 m two-point track without timestamps
yields one bin whose `timeTaken`, `velocity` and `pace` are `null` but whose
numeric duration field `timeInSeconds` is initialized to `0` (`let
timeInSeconds = 0`) — the duration in seconds is coerced to the sentinel 0,
not left unset. -/
theorem C2_counterexample : ¬ ClaimC2 := by
  intro h
  have hmap : ((getAnalysisBins (constDist 60) [tp 0 0, tp 1 10] 50 none none
      true).map fun b => (b.startTime, b.endTime, b.timeInSeconds)) =
      [(.nullv, .nullv, 0)] := by
    norm_num [getAnalysisBins, binScanAux, mkBin, binTimeSeconds,
      JSDate.truthy, constDist, tp]
  rcases hl : getAnalysisBins (constDist 60) [tp 0 0, tp 1 10] 50 none none
      true with - | ⟨b, l⟩
  · rw [hl] at hmap
    simp at hmap
  · rw [hl] at hmap
    rcases l with - | ⟨b2, l2⟩
    · simp only [List.map_cons, List.map_nil, List.cons.injEq,
        Prod.mk.injEq, and_true] at hmap
      obtain ⟨hst, het, hts⟩ := hmap
      have := h (constDist 60) [tp 0 0, tp 1 10] 50 none none true b
        (by rw [hl]; exact List.mem_cons_self b [])
        (by rw [hst, het]; rfl)
      exact this.2.2.2 hts
    · simp at hmap

/-- Amended claim C2: when a bin's endpoints do not admit a valid, finite,
positive elapsed time, the formatted duration `timeTaken`, the velocity and
the pace are all left unset (`null`), never coerced to 0 or NaN, while the
numeric duration field `timeInSeconds` is set to its absent-value sentinel 0. -/
theorem C2_amended (dist : Point → Point → ℚ) (pts : List Point)
    (binLength : ℚ) (co : Option (ℚ × ℚ × ℚ × ℚ × ℚ)) (rv : Option ℚ)
    (uq : Bool) :
    ∀ b ∈ getAnalysisBins dist pts binLength co rv uq,
      binTimeSeconds b.startTime b.endTime = none →
      b.timeTaken = none ∧ b.velocity = none ∧ b.pace_min_per_km = none
        ∧ b.timeInSeconds = 0 := by
  intro b hb ht
  obtain ⟨d, uq', hshape⟩ := mem_getAnalysisBins_shape dist pts binLength
    co rv uq b hb
  rw [hshape] at ht ⊢
  rw [mkBin_startTime, mkBin_endTime] at ht
  rw [mkBin_timeTaken, mkBin_velocity, mkBin_pace, mkBin_timeInSeconds, ht]
  exact ⟨rfl, rfl, rfl, rfl⟩

/-- Witness for `C2_amended`: the timestampless two-point track has its only
bin's `timeTaken`, `velocity` and `pace` unset and `timeInSeconds = 0`. -/
theorem C2_amended_witness :
    ∃ b ∈ getAnalysisBins (constDist 60) [tp 0 0, tp 1 10] 50 none none true,
      b.timeTaken = none ∧ b.velocity = none ∧ b.pace_min_per_km = none
        ∧ b.timeInSeconds = 0 := by
  have hmap : ((getAnalysisBins (constDist 60) [tp 0 0, tp 1 10] 50 none none
      true).map fun b => (b.startTime, b.endTime)) = [(.nullv, .nullv)] := by
    norm_num [getAnalysisBins, binScanAux, mkBin, constDist, tp]
  rcases hl : getAnalysisBins (constDist 60) [tp 0 0, tp 1 10] 50 none none
      true with - | ⟨b, l⟩
  · rw [hl] at hmap
    simp at hmap
  · rw [hl] at hmap
    rcases l with - | ⟨b2, l2⟩
    · simp only [List.map_cons, List.map_nil, List.cons.injEq,
        Prod.mk.injEq, and_true] at hmap
      obtain ⟨hst, het⟩ := hmap
      refine ⟨b, List.mem_cons_self b [], ?_⟩
      exact C2_amended (constDist 60) [tp 0 0, tp 1 10] 50 none none true b
        (by rw [hl]; exact List.mem_cons_self b []) (by rw [hst, het]; rfl)
    · simp at hmap

/-- Replacing a heart rate of `0` by an absent heart rate on a point. -/
def zeroHRToNone (p : Point) : Point :=
  if p.heartRate = some 0 then
    { p with heartRate := none }
  else p

theorem collectHeartRates_zeroHRToNone (slice : List Point) :
    collectHeartRates (slice.map zeroHRToNone) = collectHeartRates slice := by
  unfold collectHeartRates
  rw [List.filterMap_map]
  congr 1
  funext p
  by_cases h0 : p.heartRate = some 0
  · simp [zeroHRToNone, h0, Function.comp]
  · rcases hp : p.heartRate with - | v
    · simp [zeroHRToNone, Function.comp, hp, h0]
    · have hv : v ≠ 0 := by
        intro hv0
        rw [hv0] at hp
        exact h0 hp
      simp [zeroHRToNone, Function.comp, hp, h0, hv]

theorem collectHeartRates_eq_nil (slice : List Point)
    (h : ∀ p ∈ slice, p.heartRate = none ∨ p.heartRate = some 0) :
    collectHeartRates slice = [] := by
  induction slice with
  | nil => rfl
  | cons p rest ih =>
    simp only [collectHeartRates, List.filterMap_cons] at ih ⊢
    rcases h p (List.mem_cons_self p rest) with hp | hp
    · rw [hp]
      exact ih fun q hq => h q (List.mem_cons_of_mem p hq)
    · rw [hp]
      simpa using ih fun q hq => h q (List.mem_cons_of_mem p hq)

/-- Claim C10 (confirmed): in per-bin heart-rate aggregation, a point whose
heart rate is 0 is treated exactly like a point with no heart-rate data — the
collected-sample list is unchanged if every 0 heart rate is replaced by an
absent one, and a bin all of whose points carry heart rate 0 (or none)
reports `avg`/`max`/`min` unset and a sample count of 0. -/
theorem C10_heart_rate_zero_like_missing (dist : Point → Point → ℚ)
    (pts : List Point) (binLength : ℚ) (co : Option (ℚ × ℚ × ℚ × ℚ × ℚ))
    (rv : Option ℚ) (uq : Bool) :
    (∀ slice : List Point,
        collectHeartRates (slice.map zeroHRToNone) = collectHeartRates slice)
    ∧ ∀ b ∈ getAnalysisBins dist pts binLength co rv uq,
        (∀ p ∈ (pts.drop b.startIdx).take (b.endIdx - b.startIdx + 1),
            p.heartRate = none ∨ p.heartRate = some 0) →
        b.avgHeartRate = none ∧ b.maxHeartRate = none ∧ b.minHeartRate = none
          ∧ b.heartRateDataPoints = 0 := by
  refine ⟨collectHeartRates_zeroHRToNone, ?_⟩
  intro b hb hall
  obtain ⟨d, uq', hshape⟩ := mem_getAnalysisBins_shape dist pts binLength
    co rv uq b hb
  have hnil :
      collectHeartRates ((pts.drop b.startIdx).take (b.endIdx - b.startIdx + 1))
        = [] := collectHeartRates_eq_nil _ hall
  rw [hshape, mkBin_avgHeartRate, mkBin_maxHeartRate, mkBin_minHeartRate,
    mkBin_heartRateDataPoints, hnil]
  exact ⟨by simp, rfl, rfl, rfl⟩

/-- Concrete point with heart rate 0, used to witness claim C10. -/
def zp (lon : ℚ) : Point := ⟨0, lon, 0, .nullv, some 0⟩

/-- Witness for `C10_heart_rate_zero_like_missing`: both points of the single
bin carry heart rate 0, and the bin reports no heart-rate data. -/
theorem C10_heart_rate_zero_like_missing_witness :
    ∃ b ∈ getAnalysisBins (constDist 60) [zp 0, zp 1] 50 none none true,
      b.avgHeartRate = none ∧ b.maxHeartRate = none ∧ b.minHeartRate = none
        ∧ b.heartRateDataPoints = 0 := by
  have hmap : ((getAnalysisBins (constDist 60) [zp 0, zp 1] 50 none none
      true).map fun b => (b.startIdx, b.endIdx)) = [(0, 1)] := by
    norm_num [getAnalysisBins, binScanAux, mkBin, constDist, zp]
  rcases hl : getAnalysisBins (constDist 60) [zp 0, zp 1] 50 none none true
      with - | ⟨b, l⟩
  · rw [hl] at hmap
    simp at hmap
  · rw [hl] at hmap
    rcases l with - | ⟨b2, l2⟩
    · simp only [List.map_cons, List.map_nil, List.cons.injEq,
        Prod.mk.injEq, and_true] at hmap
      obtain ⟨hs, he⟩ := hmap
      refine ⟨b, List.mem_cons_self b [], ?_⟩
      refine (C10_heart_rate_zero_like_missing (constDist 60) [zp 0, zp 1]
        50 none none true).2 b (by rw [hl]; exact List.mem_cons_self b []) ?_
      rw [hs, he]
      intro p hp
      have hpp : p = zp 0 ∨ p = zp 1 := by simpa using hp
      rcases hpp with rfl | rfl
      · right; rfl
      · right; rfl
    · simp at hmap

/-- A bin as received (as JSON) by the analysis endpoints: the numeric fields
the analyses read, with nullable fields as `Option`. -/
structure ABin where
  gradient : ℚ
  timeInSeconds : ℚ
  distance : ℚ
  velocity : Option ℚ
  avgSpeed : Option ℚ
  avgHeartRate : Option ℚ
deriving DecidableEq, Repr

/-- One uploaded run's worth of bins, as received by the analysis endpoints. -/
structure Run where
  bins : List ABin
deriving DecidableEq, Repr

/-- The heart-rate filter object of `/api/analyze-with-filters-json`. -/
structure HeartRateFilter where
  minHR : Option ℚ
  maxHR : Option ℚ
deriving DecidableEq, Repr

/-- JS truthiness of an optional numeric field: absent and 0 are falsy. -/
def optTruthy : Option ℚ → Bool
  | some v => v ≠ 0
  | none => false

/-- Exclusion counters of the reliability filter. -/
structure ExclusionCounts where
  speed : ℕ
  gradient : ℕ
  timeInSeconds : ℕ
  distance : ℕ
  heartRate : ℕ
  total : ℕ
deriving DecidableEq, Repr

/-- All-zero exclusion counters. -/
def ExclusionCounts.zero : ExclusionCounts := ⟨0, 0, 0, 0, 0, 0⟩

/-- Sum of the five named exclusion counters (excludes `total`). -/
def namedSum (c : ExclusionCounts) : ℕ :=
  c.speed + c.gradient + c.timeInSeconds + c.distance + c.heartRate

/-- Exclusion reason labels of the reliability filter. -/
inductive Reason where
  | speed | gradient | timeInSeconds | distance | heartRate
deriving DecidableEq, Repr

/-- The bin speed in km/h: a numeric `avgSpeed` field if present, else
`velocity * 3.6`, else 0. -/
def binSpeed (bin : ABin) : ℚ :=
  match bin.avgSpeed with
  | some s => s
  | none =>
    match bin.velocity with
    | some v => v * (36/10)
    | none => 0

/-- The physical-plausibility else-if chain: first failing check wins. -/
def plausReason (bin : ABin) : Option Reason :=
  if ¬ (binSpeed bin ≥ 1 ∧ binSpeed bin ≤ 30) then some .speed
  else if ¬ (bin.gradient ≤ 30 ∧ bin.gradient ≥ -30) then some .gradient
  else if ¬ (bin.timeInSeconds ≥ 1) then some .timeInSeconds
  else if ¬ (bin.distance > 0) then some .distance
  else none

/-- `bin.avgHeartRate == null || (minHR && avgHR < minHR) ||
(maxHR && avgHR > maxHR)`. -/
def hrExcluded (f : HeartRateFilter) (bin : ABin) : Bool :=
  match bin.avgHeartRate with
  | none => true
  | some hr =>
    (optTruthy f.minHR && decide (hr < f.minHR.getD 0)) ||
      (optTruthy f.maxHR && decide (hr > f.maxHR.getD 0))

/-- `heartRateFilter && (heartRateFilter.minHR || heartRateFilter.maxHR)`
gating the heart-rate check, combined with the check itself. -/
def hrExcludedActive (hrf : Option HeartRateFilter) (bin : ABin) : Bool :=
  match hrf with
  | some f => (optTruthy f.minHR || optTruthy f.maxHR) && hrExcluded f bin
  | none => false

/-- The per-bin body of the `/api/analyze-with-filters-json` `forEach`: the
plausibility else-if chain increments one named counter when enabled and
failing, then — independently — the active heart-rate check increments its
counter and overwrites the exclusion reason; a bin with any reason set
increments `total` and is dropped, otherwise it is kept. -/
def filterBinStep (removeUnreliableBins : Bool) (hrf : Option HeartRateFilter)
    (c : ExclusionCounts) (bin : ABin) : ExclusionCounts × Bool :=
  let reason1 : Option Reason :=
    if removeUnreliableBins then plausReason bin else none
  let c1 : ExclusionCounts :=
    match reason1 with
    | some .speed => { c with speed := c.speed + 1 }
    | some .gradient => { c with gradient := c.gradient + 1 }
    | some .timeInSeconds => { c with timeInSeconds := c.timeInSeconds + 1 }
    | some .distance => { c with distance := c.distance + 1 }
    | _ => c
  let hrx := hrExcludedActive hrf bin
  let reason2 : Option Reason := if hrx then some .heartRate else reason1
  let c2 : ExclusionCounts :=
    if hrx then { c1 with heartRate := c1.heartRate + 1 } else c1
  match reason2 with
  | none => (c2, true)
  | some _ => ({ c2 with total := c2.total + 1 }, false)

/-- A bin is kept iff neither the enabled plausibility chain nor the active
heart-rate check excludes it. -/
def binKept (removeUnreliableBins : Bool) (hrf : Option HeartRateFilter)
    (bin : ABin) : Bool :=
  (match (if removeUnreliableBins then plausReason bin else none) with
    | none => true
    | some _ => false) && !(hrExcludedActive hrf bin)

/-- The filter over one run's bin list, threading the counters. -/
def filterBinsList (removeUnreliableBins : Bool)
    (hrf : Option HeartRateFilter) :
    ExclusionCounts → List ABin → ExclusionCounts × List ABin
  | c, [] => (c, [])
  | c, b :: bs =>
    let r := filterBinStep removeUnreliableBins hrf c b
    let rest := filterBinsList removeUnreliableBins hrf r.1 bs
    (rest.1, if r.2 then b :: rest.2 else rest.2)

/-- The filter over all runs of the request, threading one shared counter
record across every run. -/
def filterRunsList (removeUnreliableBins : Bool)
    (hrf : Option HeartRateFilter) :
    ExclusionCounts → List Run → ExclusionCounts × List Run
  | c, [] => (c, [])
  | c, r :: rs =>
    let fr := filterBinsList removeUnreliableBins hrf c r.bins
    let rest := filterRunsList removeUnreliableBins hrf fr.1 rs
    (rest.1, ⟨fr.2⟩ :: rest.2)

theorem filterBinStep_keep (ru : Bool) (hrf : Option HeartRateFilter)
    (c : ExclusionCounts) (bin : ABin) :
    (filterBinStep ru hrf c bin).2 = binKept ru hrf bin := by
  unfold filterBinStep binKept
  rcases hpl : (if ru then plausReason bin else none) with - | r
  · rcases hhx : hrExcludedActive hrf bin with - | -
    · simp [hpl, hhx]
    · simp [hpl, hhx]
  · rcases hhx : hrExcludedActive hrf bin with - | - <;>
      rcases r with - | - | - | - | - <;> simp [hpl, hhx]

theorem filterBinStep_kept_counts (ru : Bool) (hrf : Option HeartRateFilter)
    (c : ExclusionCounts) (bin : ABin)
    (h : (filterBinStep ru hrf c bin).2 = true) :
    (filterBinStep ru hrf c bin).1 = c := by
  revert h
  unfold filterBinStep
  rcases hpl : (if ru then plausReason bin else none) with - | r
  · rcases hhx : hrExcludedActive hrf bin with - | -
    · simp [hpl, hhx]
    · simp [hpl, hhx]
  · rcases hhx : hrExcludedActive hrf bin with - | - <;>
      rcases r with - | - | - | - | - <;> simp [hpl, hhx]

theorem plausReason_ne_heartRate (bin : ABin) :
    plausReason bin ≠ some .heartRate := by
  unfold plausReason
  split_ifs <;> simp

theorem filterBinStep_excluded_counts (ru : Bool)
    (hrf : Option HeartRateFilter) (c : ExclusionCounts) (bin : ABin)
    (h : (filterBinStep ru hrf c bin).2 = false) :
    (filterBinStep ru hrf c bin).1.total = c.total + 1
    ∧ namedSum (filterBinStep ru hrf c bin).1 =
        namedSum c +
          (if ru = true ∧ (plausReason bin).isSome
              ∧ hrExcludedActive hrf bin = true then 2 else 1) := by
  revert h
  unfold filterBinStep
  rcases ru with - | -
  · rcases hhx : hrExcludedActive hrf bin with - | - <;>
      simp [hhx, namedSum] <;> omega
  · rcases hpl : plausReason bin with - | r
    · rcases hhx : hrExcludedActive hrf bin with - | - <;>
        simp [hpl, hhx, namedSum] <;> omega
    · rcases r with - | - | - | - | -
      · rcases hhx : hrExcludedActive hrf bin with - | - <;>
          simp [hpl, hhx, namedSum] <;> omega
      · rcases hhx : hrExcludedActive hrf bin with - | - <;>
          simp [hpl, hhx, namedSum] <;> omega
      · rcases hhx : hrExcludedActive hrf bin with - | - <;>
          simp [hpl, hhx, namedSum] <;> omega
      · rcases hhx : hrExcludedActive hrf bin with - | - <;>
          simp [hpl, hhx, namedSum] <;> omega
      · exact absurd hpl (plausReason_ne_heartRate bin)

theorem filterBinStep_speed_and_hr (ru : Bool) (hrf : Option HeartRateFilter)
    (c : ExclusionCounts) (bin : ABin) (hru : ru = true)
    (hpl : plausReason bin = some .speed)
    (hhx : hrExcludedActive hrf bin = true) :
    (filterBinStep ru hrf c bin).1.speed = c.speed + 1
    ∧ (filterBinStep ru hrf c bin).1.heartRate = c.heartRate + 1
    ∧ (filterBinStep ru hrf c bin).1.total = c.total + 1 := by
  subst hru
  unfold filterBinStep
  simp [hpl, hhx]

theorem filterBinsList_kept (ru : Bool) (hrf : Option HeartRateFilter) :
    ∀ (bins : List ABin) (c : ExclusionCounts),
      (filterBinsList ru hrf c bins).2 = bins.filter (binKept ru hrf) := by
  intro bins
  induction bins with
  | nil => intro c; rfl
  | cons b bs ih =>
    intro c
    simp only [filterBinsList, List.filter_cons, ih, filterBinStep_keep]

/-- Claim C3 as stated: every excluded bin increments exactly one named
exclusion counter plus the overall total (reasons mutually exclusive, first
match winning, never double-counted). -/
def ClaimC3 : Prop :=
  ∀ (ru : Bool) (hrf : Option HeartRateFilter) (bin : ABin),
    (filterBinStep ru hrf ExclusionCounts.zero bin).2 = false →
    namedSum (filterBinStep ru hrf ExclusionCounts.zero bin).1 = 1
    ∧ (filterBinStep ru hrf ExclusionCounts.zero bin).1.total = 1

/-- Claim C3 is false on the code: the heart-rate check sits outside the
plausibility else-if chain, so with `removeUnreliableBins` on and an active
heart-rate filter `{minHR: 100}`, a bin with no speed data (derived speed 0,
excluded for speed) and no heart-rate data increments both the `speed` and
`heartRate` counters — two named counters for one excluded bin. -/
theorem C3_counterexample : ¬ ClaimC3 := by
  intro h
  have hx : (filterBinStep true (some ⟨some 100, none⟩)
      ExclusionCounts.zero ⟨0, 10, 100, none, none, none⟩).2 = false := by
    norm_num [filterBinStep, plausReason, binSpeed, hrExcludedActive,
      hrExcluded, optTruthy]
  have h2 := (h true (some ⟨some 100, none⟩)
    ⟨0, 10, 100, none, none, none⟩ hx).1
  have h3 : namedSum (filterBinStep true (some ⟨some 100, none⟩)
      ExclusionCounts.zero ⟨0, 10, 100, none, none, none⟩).1 = 2 := by
    norm_num [filterBinStep, plausReason, binSpeed, hrExcludedActive,
      hrExcluded, optTruthy, namedSum, ExclusionCounts.zero]
  rw [h2] at h3
  exact absurd h3 (by norm_num)

/-- Amended claim C3: the four physical-plausibility reasons (speed,
gradient, duration, distance) are checked in order with first match winning
and are mutually exclusive among themselves, but the heart-rate check runs
independently after the chain.  A kept bin changes no counter; an excluded
bin increments `total` exactly once and increments one named counter —
two when it fails both an enabled plausibility check and the active
heart-rate check (in particular a speed-excluded bin is also counted under
heart-rate whenever the active heart-rate filter rejects it).  Kept bins pass
through unchanged, in order. -/
theorem C3_amended (ru : Bool) (hrf : Option HeartRateFilter)
    (c : ExclusionCounts) (bin : ABin) :
    ((filterBinStep ru hrf c bin).2 = binKept ru hrf bin)
    ∧ ((filterBinStep ru hrf c bin).2 = true →
        (filterBinStep ru hrf c bin).1 = c)
    ∧ ((filterBinStep ru hrf c bin).2 = false →
        (filterBinStep ru hrf c bin).1.total = c.total + 1
        ∧ namedSum (filterBinStep ru hrf c bin).1 =
            namedSum c +
              (if ru = true ∧ (plausReason bin).isSome
                  ∧ hrExcludedActive hrf bin = true then 2 else 1))
    ∧ (ru = true → plausReason bin = some .speed →
        hrExcludedActive hrf bin = true →
        (filterBinStep ru hrf c bin).1.speed = c.speed + 1
        ∧ (filterBinStep ru hrf c bin).1.heartRate = c.heartRate + 1
        ∧ (filterBinStep ru hrf c bin).1.total = c.total + 1)
    ∧ (∀ bins : List ABin,
        (filterBinsList ru hrf c bins).2 = bins.filter (binKept ru hrf)) :=
  ⟨filterBinStep_keep ru hrf c bin,
    filterBinStep_kept_counts ru hrf c bin,
    filterBinStep_excluded_counts ru hrf c bin,
    fun hru hpl hhx => filterBinStep_speed_and_hr ru hrf c bin hru hpl hhx,
    fun bins => filterBinsList_kept ru hrf bins c⟩

/-- Witness for `C3_amended`: the concrete speed-and-heart-rate excluded bin
increments both counters and `total` once. -/
theorem C3_amended_witness :
    (filterBinStep true (some ⟨some 100, none⟩) ExclusionCounts.zero
        ⟨0, 10, 100, none, none, none⟩).1.speed = 0 + 1
    ∧ (filterBinStep true (some ⟨some 100, none⟩) ExclusionCounts.zero
        ⟨0, 10, 100, none, none, none⟩).1.heartRate = 0 + 1
    ∧ (filterBinStep true (some ⟨some 100, none⟩) ExclusionCounts.zero
        ⟨0, 10, 100, none, none, none⟩).1.total = 0 + 1 :=
  (C3_amended true (some ⟨some 100, none⟩) ExclusionCounts.zero
    ⟨0, 10, 100, none, none, none⟩).2.2.2.1 rfl
    (by norm_num [plausReason, binSpeed])
    (by norm_num [hrExcludedActive, hrExcluded, optTruthy])

/-- Gradient-map key of `getPaceByGradientChart`: the stringified rounded
gradient, with `'<=-35'` and `'>=35'` as the sentinel extreme keys. -/
inductive GKey where
  | negExtreme : GKey
  | posExtreme : GKey
  | mid (z : ℤ) : GKey
deriving DecidableEq, Repr

/-- Qualification check of the chart: `distance > 0 && timeInSeconds > 0`
(the `typeof === 'number'` guards always hold on the modelled numeric
fields). -/
def chartQual (bin : ABin) : Bool :=
  decide (bin.distance > 0) && decide (bin.timeInSeconds > 0)

/-- `Math.round` the gradient, then fold `<= -35` and `>= 35` into the
sentinel extreme keys. -/
def keyOf (bin : ABin) : GKey :=
  let grad := jsRound bin.gradient
  if grad ≤ -35 then .negExtreme
  else if grad ≥ 35 then .posExtreme
  else .mid grad

/-- Per-key accumulator of the gradient map. -/
structure GTotals where
  totalDistance : ℚ
  totalTime : ℚ
  binCount : ℕ
deriving DecidableEq, Repr

/-- Adding one qualifying bin into a key's totals. -/
def addTotals (t : GTotals) (b : ABin) : GTotals :=
  ⟨t.totalDistance + b.distance, t.totalTime + b.timeInSeconds, t.binCount + 1⟩

/-- In-place update (or first-insertion append) of the key's totals, as the
JS object mutation does: existing keys keep their position, new keys are
appended. -/
def gmapUpdate : List (GKey × GTotals) → GKey → ABin → List (GKey × GTotals)
  | [], k, b => [(k, ⟨b.distance, b.timeInSeconds, 1⟩)]
  | (k', t) :: rest, k, b =>
    if k' = k then (k', addTotals t b) :: rest
    else (k', t) :: gmapUpdate rest k b

/-- The gradient-map building loop over all bins. -/
def buildGradientMap : List (GKey × GTotals) → List ABin → List (GKey × GTotals)
  | m, [] => m
  | m, b :: bs =>
    buildGradientMap (if chartQual b then gmapUpdate m (keyOf b) b else m) bs

/-- All bins pooled from all runs, in order. -/
def allBins (runs : List Run) : List ABin := (runs.map Run.bins).join

/-- First-match association lookup (JS property access on the map object). -/
def lookupG : List (GKey × GTotals) → GKey → Option GTotals
  | [], _ => none
  | (k', t) :: rest, k => if k' = k then some t else lookupG rest k

/-- Stable insertion into a sorted list under a JS comparator-derived `le`. -/
def insertLe {α : Type} (le : α → α → Bool) (x : α) : List α → List α
  | [] => [x]
  | y :: ys => if le x y then x :: y :: ys else y :: insertLe le x ys

/-- Model of `Array.prototype.sort` with a comparator: a stable sort with
respect to `le a b := (cmp a b ≤ 0)`.  ECMAScript pins the result (any stable
sort) only for consistent comparators; for inconsistent ones the result is
implementation-defined and this model fixes one stable algorithm. -/
def jsSort {α : Type} (le : α → α → Bool) (l : List α) : List α :=
  l.foldr (insertLe le) []

/-- `'0', '1', ...` are array-index keys of a JS object and are enumerated
first, in ascending order, by `Object.entries`; all other keys (negative
integers and the sentinels) follow in insertion order. -/
def isIdxKey : GKey → Bool
  | .mid z => decide (0 ≤ z)
  | _ => false

/-- Ascending order on array-index keys. -/
def idxKeyLe (a b : GKey × GTotals) : Bool :=
  match a.1, b.1 with
  | .mid x, .mid y => decide (x ≤ y)
  | _, _ => true

/-- `Object.entries` enumeration order of the gradient map. -/
def objEntriesOrder (m : List (GKey × GTotals)) : List (GKey × GTotals) :=
  jsSort idxKeyLe (m.filter fun kv => isIdxKey kv.1)
    ++ m.filter fun kv => !isIdxKey kv.1

/-- One row of the per-degree pace chart (`paceLabel`, a formatting of
`avgPace`, is elided). -/
structure ChartEntry where
  gradient : GKey
  binCount : ℕ
  avgPace : ℚ
deriving DecidableEq, Repr

/-- `paceMinPerKm = (totalTime / 60) / (totalDistance / 1000)`. -/
def toChartEntry (kv : GKey × GTotals) : ChartEntry :=
  ⟨kv.1, kv.2.binCount, (kv.2.totalTime / 60) / (kv.2.totalDistance / 1000)⟩

/-- `parseInt` on a chart key: an integer for the integer keys, `none` (NaN)
for the sentinel keys `'<=-35'` and `'>=35'`. -/
def parseIntKey : GKey → Option ℤ
  | .mid z => some z
  | _ => none

/-- The chart's sort comparator as `le`: the code first compares against the
literals `'<-35'` and `'>35'`, which match no actual key (the sentinels are
spelled `'<=-35'`/`'>=35'`), so those four checks never fire; the comparator
then returns `parseInt(a) - parseInt(b)`, which is NaN — treated as 0 by
`Array.prototype.sort` — whenever a sentinel key is involved. -/
def chartCmpLe (a b : ChartEntry) : Bool :=
  match parseIntKey a.gradient, parseIntKey b.gradient with
  | some x, some y => decide (x - y ≤ 0)
  | _, _ => true

/-- `getPaceByGradientChart(allResults)` (identical in both repository
revisions): pool bins, group qualifying bins by rounded gradient with
extreme sentinels, derive one weighted pace per group, sort. -/
def getPaceByGradientChart (runs : List Run) : List ChartEntry :=
  jsSort chartCmpLe
    ((objEntriesOrder (buildGradientMap [] (allBins runs))).map toChartEntry)

/-- The group of qualifying pooled bins that fall on key `k`. -/
def groupBins (runs : List Run) (k : GKey) : List ABin :=
  (allBins runs).filter fun b => chartQual b && (keyOf b == k)

theorem insertLe_perm {α : Type} (le : α → α → Bool) (x : α) :
    ∀ l : List α, (insertLe le x l).Perm (x :: l) := by
  intro l
  induction l with
  | nil => exact List.Perm.refl _
  | cons y ys ih =>
    unfold insertLe
    by_cases h : le x y
    · rw [if_pos h]
    · rw [if_neg h]
      exact (List.Perm.cons y ih).trans (List.Perm.swap x y ys)

theorem jsSort_perm {α : Type} (le : α → α → Bool) :
    ∀ l : List α, (jsSort le l).Perm l := by
  intro l
  induction l with
  | nil => exact List.Perm.refl _
  | cons x xs ih =>
    exact (insertLe_perm le x (jsSort le xs)).trans (List.Perm.cons x ih)

theorem objEntriesOrder_perm (m : List (GKey × GTotals)) :
    (objEntriesOrder m).Perm m := by
  unfold objEntriesOrder
  exact ((jsSort_perm idxKeyLe _).append_right _).trans
    (List.filter_append_perm _ m)

theorem getPaceByGradientChart_perm (runs : List Run) :
    (getPaceByGradientChart runs).Perm
      ((buildGradientMap [] (allBins runs)).map toChartEntry) := by
  unfold getPaceByGradientChart
  exact (jsSort_perm chartCmpLe _).trans
    ((objEntriesOrder_perm _).map toChartEntry)

theorem lookupG_gmapUpdate_self (k : GKey) (b : ABin) :
    ∀ m : List (GKey × GTotals),
      lookupG (gmapUpdate m k b) k =
        some (match lookupG m k with
          | some t => addTotals t b
          | none => ⟨b.distance, b.timeInSeconds, 1⟩) := by
  intro m
  induction m with
  | nil => simp [gmapUpdate, lookupG]
  | cons kv rest ih =>
    obtain ⟨k', t⟩ := kv
    by_cases h : k' = k
    · subst h
      simp [gmapUpdate, lookupG]
    · simp [gmapUpdate, lookupG, h, ih]

theorem lookupG_gmapUpdate_ne (k k' : GKey) (b : ABin) (hne : k' ≠ k) :
    ∀ m : List (GKey × GTotals),
      lookupG (gmapUpdate m k b) k' = lookupG m k' := by
  intro m
  induction m with
  | nil => simp [gmapUpdate, lookupG, Ne.symm hne]
  | cons kv rest ih =>
    obtain ⟨k0, t⟩ := kv
    by_cases h : k0 = k
    · subst h
      simp [gmapUpdate, lookupG, Ne.symm hne]
    · by_cases h' : k0 = k'
      · subst h'
        simp [gmapUpdate, lookupG, h]
      · simp [gmapUpdate, lookupG, h, h', ih]

theorem gmapUpdate_keys (k : GKey) (b : ABin) :
    ∀ m : List (GKey × GTotals),
      (gmapUpdate m k b).map Prod.fst =
        if k ∈ m.map Prod.fst then m.map Prod.fst
        else m.map Prod.fst ++ [k] := by
  intro m
  induction m with
  | nil => simp [gmapUpdate]
  | cons kv rest ih =>
    obtain ⟨k0, t⟩ := kv
    by_cases h : k0 = k
    · subst h
      simp [gmapUpdate]
    · simp only [gmapUpdate, if_neg h, List.map_cons, ih]
      by_cases hk : k ∈ rest.map Prod.fst
      · simp [hk, Ne.symm h]
      · simp [hk, Ne.symm h]

theorem gmapUpdate_keys_nodup (k : GKey) (b : ABin)
    (m : List (GKey × GTotals)) (h : (m.map Prod.fst).Nodup) :
    ((gmapUpdate m k b).map Prod.fst).Nodup := by
  rw [gmapUpdate_keys]
  by_cases hk : k ∈ m.map Prod.fst
  · rwa [if_pos hk]
  · rw [if_neg hk]
    refine List.Nodup.append h (List.nodup_singleton k) ?_
    simpa [List.disjoint_singleton] using hk

theorem buildGradientMap_keys_nodup :
    ∀ (bins : List ABin) (m : List (GKey × GTotals)),
      (m.map Prod.fst).Nodup →
      ((buildGradientMap m bins).map Prod.fst).Nodup := by
  intro bins
  induction bins with
  | nil => intro m h; exact h
  | cons b bs ih =>
    intro m h
    unfold buildGradientMap
    by_cases hq : chartQual b
    · rw [if_pos hq]
      exact ih _ (gmapUpdate_keys_nodup _ _ _ h)
    · rw [if_neg hq]
      exact ih _ h

/-- Folding a filtered group of bins into an optional totals record, as the
map-building loop does for one key. -/
def foldTotals : Option GTotals → List ABin → Option GTotals
  | o, [] => o
  | none, b :: bs => foldTotals (some ⟨b.distance, b.timeInSeconds, 1⟩) bs
  | some t, b :: bs => foldTotals (some (addTotals t b)) bs

theorem buildGradientMap_lookup (k : GKey) :
    ∀ (bins : List ABin) (m : List (GKey × GTotals)),
      lookupG (buildGradientMap m bins) k =
        foldTotals (lookupG m k)
          (bins.filter fun b => chartQual b && (keyOf b == k)) := by
  intro bins
  induction bins with
  | nil => intro m; simp [buildGradientMap, foldTotals]
  | cons b bs ih =>
    intro m
    unfold buildGradientMap
    by_cases hq : chartQual b
    · rw [if_pos hq]
      by_cases hk : keyOf b = k
      · have hfil : (List.filter (fun b => chartQual b && (keyOf b == k))
            (b :: bs)) = b :: (List.filter
              (fun b => chartQual b && (keyOf b == k)) bs) := by
          simp [List.filter_cons, hq, hk]
        rw [hfil, ih, hk, lookupG_gmapUpdate_self]
        rcases lookupG m k with - | t <;> rfl
      · have hfil : (List.filter (fun b => chartQual b && (keyOf b == k))
            (b :: bs)) = List.filter
              (fun b => chartQual b && (keyOf b == k)) bs := by
          simp [List.filter_cons, hq, hk]
        rw [hfil, ih, lookupG_gmapUpdate_ne _ _ _ (Ne.symm hk)]
    · rw [if_neg hq]
      have hfil : (List.filter (fun b => chartQual b && (keyOf b == k))
          (b :: bs)) = List.filter
            (fun b => chartQual b && (keyOf b == k)) bs := by
        simp [List.filter_cons, hq]
      rw [hfil, ih]

theorem foldTotals_some :
    ∀ (l : List ABin) (t : GTotals),
      foldTotals (some t) l =
        some ⟨t.totalDistance + (l.map ABin.distance).sum,
          t.totalTime + (l.map ABin.timeInSeconds).sum,
          t.binCount + l.length⟩ := by
  intro l
  induction l with
  | nil => intro t; simp [foldTotals]
  | cons b bs ih =>
    intro t
    simp only [foldTotals, ih, addTotals, List.map_cons, List.sum_cons,
      List.length_cons, Option.some.injEq, GTotals.mk.injEq]
    refine ⟨by ring, by ring, by omega⟩

theorem foldTotals_none :
    ∀ l : List ABin, l ≠ [] →
      foldTotals none l =
        some ⟨(l.map ABin.distance).sum, (l.map ABin.timeInSeconds).sum,
          l.length⟩ := by
  intro l hne
  match l with
  | b :: bs =>
    simp only [foldTotals, foldTotals_some, List.map_cons, List.sum_cons,
      List.length_cons, Option.some.injEq, GTotals.mk.injEq]
    refine ⟨by ring, by ring, by omega⟩

theorem mem_keys_of_lookupG_some :
    ∀ (m : List (GKey × GTotals)) (k : GKey) (t : GTotals),
      lookupG m k = some t → k ∈ m.map Prod.fst := by
  intro m
  induction m with
  | nil => intro k t h; cases h
  | cons kv rest ih =>
    intro k t h
    obtain ⟨k1, t1⟩ := kv
    simp only [List.map_cons]
    by_cases h1 : k1 = k
    · exact h1 ▸ List.mem_cons_self k1 _
    · simp only [lookupG, if_neg h1] at h
      exact List.mem_cons_of_mem _ (ih k t h)

theorem lookupG_of_mem_nodup :
    ∀ (m : List (GKey × GTotals)), (m.map Prod.fst).Nodup →
      ∀ kv ∈ m, lookupG m kv.1 = some kv.2 := by
  intro m
  induction m with
  | nil => intro _ kv h; cases h
  | cons kv0 rest ih =>
    intro hnd kv hmem
    obtain ⟨k0, t0⟩ := kv0
    simp only [List.map_cons, List.nodup_cons] at hnd
    rcases List.mem_cons.mp hmem with h | h
    · subst h
      simp [lookupG]
    · have hne : k0 ≠ kv.1 := by
        intro he
        exact hnd.1 (he ▸ (List.mem_map.mpr ⟨kv, h, rfl⟩))
      simp only [lookupG, if_neg hne]
      exact ih hnd.2 kv h

theorem countP_keys_nodup (k : GKey) :
    ∀ (m : List (GKey × GTotals)), (m.map Prod.fst).Nodup →
      m.countP (fun kv => kv.1 == k) =
        if lookupG m k = none then 0 else 1 := by
  intro m
  induction m with
  | nil => intro _; rfl
  | cons kv0 rest ih =>
    intro hnd
    obtain ⟨k0, t0⟩ := kv0
    simp only [List.map_cons, List.nodup_cons] at hnd
    by_cases h : k0 = k
    · subst h
      have hnotin : lookupG rest k0 = none := by
        rcases hlk : lookupG rest k0 with - | t
        · rfl
        · exact absurd (mem_keys_of_lookupG_some rest k0 t hlk) hnd.1
      rw [List.countP_cons]
      simp only [lookupG, if_pos rfl]
      rw [ih hnd.2, hnotin]
      simp
    · rw [List.countP_cons]
      simp only [lookupG, if_neg h]
      rw [ih hnd.2]
      simp [h]

/-- Claim C4 (confirmed): the per-degree pace chart has exactly one entry for
each nonempty group of qualifying bins (positive distance and positive time,
grouped by gradient rounded to the nearest integer with `<= -35` / `>= 35`
folded into the sentinel extreme keys), and that entry's single pace value is
`(Σ time / 60) / (Σ distance / 1000)` over the group — the
distance/time-weighted average, with the entry's `binCount` the group size
(hence not, in general, the mean of the per-bin paces). -/
theorem C4_per_degree_chart (runs : List Run) (k : GKey) :
    ((getPaceByGradientChart runs).countP (fun e => e.gradient == k)
      = if groupBins runs k = [] then 0 else 1)
    ∧ ∀ e ∈ getPaceByGradientChart runs, e.gradient = k →
        e.binCount = (groupBins runs k).length
        ∧ e.avgPace = (((groupBins runs k).map ABin.timeInSeconds).sum / 60)
            / (((groupBins runs k).map ABin.distance).sum / 1000) := by
  have hnd : ((buildGradientMap [] (allBins runs)).map Prod.fst).Nodup :=
    buildGradientMap_keys_nodup (allBins runs) [] (by simp)
  have hlk : lookupG (buildGradientMap [] (allBins runs)) k =
      foldTotals none (groupBins runs k) :=
    buildGradientMap_lookup k (allBins runs) []
  constructor
  · rw [(getPaceByGradientChart_perm runs).countP_eq]
    rw [List.countP_map]
    have hpred : ((fun e : ChartEntry => e.gradient == k) ∘ toChartEntry)
        = fun kv : GKey × GTotals => kv.1 == k := rfl
    rw [hpred, countP_keys_nodup k _ hnd, hlk]
    by_cases hgr : groupBins runs k = []
    · rw [hgr]
      simp [foldTotals]
    · rw [foldTotals_none _ hgr]
      simp [hgr]
  · intro e he hek
    have hmem : e ∈ (buildGradientMap [] (allBins runs)).map toChartEntry :=
      (getPaceByGradientChart_perm runs).mem_iff.mp he
    obtain ⟨kv, hkv, hkve⟩ := List.mem_map.mp hmem
    have hk1 : kv.1 = k := by
      rw [← hek, ← hkve]
      rfl
    have hsome := lookupG_of_mem_nodup _ hnd kv hkv
    rw [hk1, hlk] at hsome
    have hgr : groupBins runs k ≠ [] := by
      intro hnil
      rw [hnil] at hsome
      cases hsome
    rw [foldTotals_none _ hgr] at hsome
    have hkv2 : kv.2 = ⟨((groupBins runs k).map ABin.distance).sum,
        ((groupBins runs k).map ABin.timeInSeconds).sum,
        (groupBins runs k).length⟩ := Option.some.inj hsome.symm
    rw [← hkve]
    unfold toChartEntry
    rw [hkv2]
    exact ⟨rfl, rfl⟩

/-- Fixture for the C4 witness: one run with two qualifying gradient-0 bins
of 1000 m each taking 180 s and 600 s. -/
def c4runs : List Run :=
  [⟨[⟨0, 180, 1000, none, none, none⟩, ⟨0, 600, 1000, none, none, none⟩]⟩]

/-- Witness for `C4_per_degree_chart`: the single gradient-0 chart entry of
the fixture carries the weighted pace (780/60)/(2000/1000) = 6.5 — not the
per-bin pace mean, which would be (3 + 10)/2 = 6.5 only by coincidence of
equal distances; with these inputs both weights are equal so the value is
6.5 either way, and the theorem's formula evaluates to 13/2. -/
theorem C4_per_degree_chart_witness :
    ∃ e ∈ getPaceByGradientChart c4runs,
      e.binCount = (groupBins c4runs (GKey.mid 0)).length
      ∧ e.avgPace = (((groupBins c4runs (GKey.mid 0)).map
            ABin.timeInSeconds).sum / 60)
          / (((groupBins c4runs (GKey.mid 0)).map ABin.distance).sum / 1000) := by
  have hmap : (getPaceByGradientChart c4runs).map (fun e => e.gradient)
      = [GKey.mid 0] := by
    norm_num [getPaceByGradientChart, buildGradientMap, allBins, gmapUpdate,
      addTotals, chartQual, keyOf, jsRound, objEntriesOrder, jsSort, insertLe,
      isIdxKey, idxKeyLe, toChartEntry, chartCmpLe, parseIntKey, c4runs]
  rcases hl : getPaceByGradientChart c4runs with - | ⟨e, l⟩
  · rw [hl] at hmap
    simp at hmap
  · rw [hl] at hmap
    rcases l with - | ⟨e2, l2⟩
    · simp only [List.map_cons, List.map_nil, List.cons.injEq, and_true]
        at hmap
      refine ⟨e, List.mem_cons_self e [], ?_⟩
      exact (C4_per_degree_chart c4runs (GKey.mid 0)).2 e
        (by rw [hl]; exact List.mem_cons_self e []) hmap
    · simp at hmap

/-- `gradientValue` extraction of the `part_004` revision: the sentinel keys
map to −35 / 35, integer keys parse to their value. -/
def gradientValueOf : GKey → ℤ
  | .negExtreme => -35
  | .posExtreme => 35
  | .mid z => z

/-- The hardcoded Strava GAP quartic coefficients (exact values of the source
decimal literals). -/
def GAP_A : ℚ := -(5294439830640173 : ℚ) / 10 ^ 22

/-- Cubic GAP coefficient. -/
def GAP_B : ℚ := -(3989571857841264 : ℚ) / 10 ^ 21

/-- Quadratic GAP coefficient. -/
def GAP_C : ℚ := (20535661142752205 : ℚ) / 10 ^ 19

/-- Linear GAP coefficient. -/
def GAP_D : ℚ := (3265674125152065 : ℚ) / 10 ^ 17

/-- The literature adjustment quartic evaluated by
`getGradeAdjustmentAnalysis` at the entry's gradient value. -/
def gapLiterature (x : ℚ) : ℚ :=
  GAP_A * x ^ 4 + GAP_B * x ^ 3 + GAP_C * x ^ 2 + GAP_D * x + 1

/-- One row of the grade-adjustment analysis (label fields elided). -/
structure AdjEntry where
  gradient : GKey
  gradientValue : ℤ
  personalAdjustment : ℚ
  literatureAdjustment : ℚ
  binCount : ℕ
  avgPace : ℚ
deriving DecidableEq, Repr

/-- `parseInt(item.gradient) >= -2 && parseInt(item.gradient) <= 2` — NaN
comparisons are false, so sentinel keys never qualify. -/
def nearZeroKey (e : ChartEntry) : Bool :=
  match parseIntKey e.gradient with
  | some z => decide (-2 ≤ z ∧ z ≤ 2)
  | none => false

/-- The near-zero sort comparator as `le`:
`Math.abs(parseInt(a)) - Math.abs(parseInt(b)) ≤ 0`, with the NaN-producing
(sentinel) comparisons treated as 0 — sentinels are filtered out before this
sort runs. -/
def nearLe (a b : ChartEntry) : Bool :=
  match parseIntKey a.gradient, parseIntKey b.gradient with
  | some x, some y => decide (x.natAbs ≤ y.natAbs)
  | _, _ => true

/-- Baseline-pace selection of `getGradeAdjustmentAnalysis` (`part_004`):
the pace of the `'0'` entry if present; else the pace of the entry of
smallest absolute integer gradient within [−2, 2]; else the average of all
truthy paces (`NaN`, modelled `none`, when that set is empty). -/
def baselinePace (gd : List ChartEntry) : Option ℚ :=
  match gd.find? (fun e => e.gradient == GKey.mid 0) with
  | some e => some e.avgPace
  | none =>
    match jsSort nearLe (gd.filter nearZeroKey) with
    | e :: _ => some e.avgPace
    | [] =>
      let validPaces := (gd.filter fun e => e.avgPace ≠ 0).map ChartEntry.avgPace
      if validPaces.length ≠ 0 then some (validPaces.sum / validPaces.length)
      else none

/-- The final sort comparator of the `part_004` revision as `le`: the
sentinel `'<=-35'` first, `'>=35'` last, the rest by `gradientValue`
difference. -/
def adjLe (a b : AdjEntry) : Bool :=
  decide ((if a.gradient = GKey.negExtreme then -1
    else if b.gradient = GKey.negExtreme then 1
    else if a.gradient = GKey.posExtreme then 1
    else if b.gradient = GKey.posExtreme then -1
    else a.gradientValue - b.gradientValue : ℤ) ≤ 0)

/-- One adjustment row: the personal factor is
`basePace > 0 ? avgPace / basePace : 1` rounded through `toFixed(4)` (`null`
and `NaN` baselines compare false); the literature factor is the GAP quartic
at the entry's gradient value, likewise rounded. -/
def mkAdjEntry (basePace : Option ℚ) (item : ChartEntry) : AdjEntry :=
  let gradientValue := gradientValueOf item.gradient
  let adjustmentFactor : ℚ :=
    match basePace with
    | some bp => if bp > 0 then item.avgPace / bp else 1
    | none => 1
  AdjEntry.mk item.gradient gradientValue (jsToFixed4 adjustmentFactor)
    (jsToFixed4 (gapLiterature (gradientValue : ℚ))) item.binCount
    item.avgPace

/-- `getGradeAdjustmentAnalysis(allResults)` of the `part_004` revision:
returns the sorted adjustment rows and the baseline pace. -/
def getGradeAdjustmentAnalysis_v4 (runs : List Run) :
    List AdjEntry × Option ℚ :=
  let gradientData := getPaceByGradientChart runs
  let basePace := baselinePace gradientData
  (jsSort adjLe (gradientData.map (mkAdjEntry basePace)), basePace)

/-- Sort rank realized by the `part_004` final comparator: sentinels strictly
first and last, integer keys by value (integer keys lie in [−34, 34]). -/
def adjRank (e : AdjEntry) : ℤ :=
  match e.gradient with
  | .negExtreme => -36
  | .posExtreme => 36
  | .mid z => z

theorem insertLe_pairwise {α : Type} (le : α → α → Bool) (f : α → ℤ) (x : α) :
    ∀ s : List α, s.Pairwise (fun a b => f a ≤ f b) →
      (∀ y ∈ s, le x y = true ↔ f x ≤ f y) →
      (insertLe le x s).Pairwise (fun a b => f a ≤ f b) := by
  intro s
  induction s with
  | nil => intro _ _; simp [insertLe]
  | cons y ys ih =>
    intro hp hiff
    obtain ⟨hy, hys⟩ := List.pairwise_cons.mp hp
    unfold insertLe
    by_cases hle : le x y
    · rw [if_pos hle]
      have hxy : f x ≤ f y := (hiff y (List.mem_cons_self y ys)).mp hle
      refine List.pairwise_cons.mpr ⟨?_, hp⟩
      intro z hz
      rcases List.mem_cons.mp hz with rfl | hz
      · exact hxy
      · exact le_trans hxy (hy z hz)
    · rw [if_neg hle]
      have hyx : f y ≤ f x := by
        have := (hiff y (List.mem_cons_self y ys)).not.mp
          (by simpa using hle)
        omega
      refine List.pairwise_cons.mpr ⟨?_, ?_⟩
      · intro z hz
        rcases List.mem_cons.mp ((insertLe_perm le x ys).mem_iff.mp hz)
          with rfl | h
        · exact hyx
        · exact hy z h
      · exact ih hys fun z hz => hiff z (List.mem_cons_of_mem y hz)

theorem jsSort_pairwise {α : Type} (le : α → α → Bool) (f : α → ℤ) :
    ∀ l : List α, l.Nodup →
      (∀ a ∈ l, ∀ b ∈ l, a ≠ b → (le a b = true ↔ f a ≤ f b)) →
      (jsSort le l).Pairwise (fun a b => f a ≤ f b) := by
  intro l
  induction l with
  | nil => intro _ _; simp [jsSort]
  | cons x xs ih =>
    intro hnd hiff
    obtain ⟨hx, hxs⟩ := List.nodup_cons.mp hnd
    have hs := ih hxs fun a ha b hb hab =>
      hiff a (List.mem_cons_of_mem x ha) b (List.mem_cons_of_mem x hb) hab
    show (insertLe le x (jsSort le xs)).Pairwise _
    refine insertLe_pairwise le f x (jsSort le xs) hs ?_
    intro y hy
    have hyxs : y ∈ xs := (jsSort_perm le xs).mem_iff.mp hy
    exact hiff x (List.mem_cons_self x xs) y (List.mem_cons_of_mem x hyxs)
      fun he => hx (he ▸ hyxs)

/-- In a list with pairwise-distinct images under `f`, members with the same
image coincide. -/
theorem eq_of_mem_map_nodup {α β : Type} (f : α → β) (l : List α)
    (hnd : (l.map f).Nodup) :
    ∀ a ∈ l, ∀ b ∈ l, f a = f b → a = b :=
  fun a ha b hb hf => List.inj_on_of_nodup_map hnd ha hb hf

/-- Keys of the gradient map are keys of the incoming map or images of
`keyOf`. -/
theorem buildGradientMap_keys_sub :
    ∀ (bins : List ABin) (m : List (GKey × GTotals)),
      ∀ k ∈ (buildGradientMap m bins).map Prod.fst,
        k ∈ m.map Prod.fst ∨ ∃ b ∈ bins, k = keyOf b := by
  intro bins
  induction bins with
  | nil => intro m k hk; exact Or.inl hk
  | cons b bs ih =>
    intro m k hk
    unfold buildGradientMap at hk
    by_cases hq : chartQual b
    · rw [if_pos hq] at hk
      rcases ih _ k hk with h | ⟨b', hb', rfl⟩
      · rw [gmapUpdate_keys] at h
        by_cases hin : keyOf b ∈ m.map Prod.fst
        · rw [if_pos hin] at h
          exact Or.inl h
        · rw [if_neg hin] at h
          rcases List.mem_append.mp h with h | h
          · exact Or.inl h
          · exact Or.inr ⟨b, List.mem_cons_self b bs,
              (List.mem_singleton.mp h)⟩
      · exact Or.inr ⟨b', List.mem_cons_of_mem b hb', rfl⟩
    · rw [if_neg hq] at hk
      rcases ih _ k hk with h | ⟨b', hb', rfl⟩
      · exact Or.inl h
      · exact Or.inr ⟨b', List.mem_cons_of_mem b hb', rfl⟩

/-- Integer chart keys lie in [−34, 34]: anything rounded outside lands on a
sentinel. -/
theorem chart_mid_range (runs : List Run) :
    ∀ e ∈ getPaceByGradientChart runs, ∀ z : ℤ, e.gradient = .mid z →
      -34 ≤ z ∧ z ≤ 34 := by
  intro e he z hz
  have hmem : e ∈ (buildGradientMap [] (allBins runs)).map toChartEntry :=
    (getPaceByGradientChart_perm runs).mem_iff.mp he
  obtain ⟨kv, hkv, hkve⟩ := List.mem_map.mp hmem
  have hk1 : kv.1 = GKey.mid z := by rw [← hz, ← hkve]; rfl
  have hkey : kv.1 ∈ (buildGradientMap [] (allBins runs)).map Prod.fst :=
    List.mem_map.mpr ⟨kv, hkv, rfl⟩
  rcases buildGradientMap_keys_sub (allBins runs) [] kv.1 hkey with h | ⟨b, -, hb⟩
  · simp at h
  · rw [hk1] at hb
    unfold keyOf at hb
    by_cases h1 : jsRound b.gradient ≤ -35
    · rw [if_pos h1] at hb
      cases hb
    · rw [if_neg h1] at hb
      by_cases h2 : jsRound b.gradient ≥ 35
      · rw [if_pos h2] at hb
        cases hb
      · rw [if_neg h2] at hb
        have : jsRound b.gradient = z := by
          injection hb.symm
        omega

/-- The chart's gradient keys are pairwise distinct. -/
theorem chart_gradients_nodup (runs : List Run) :
    ((getPaceByGradientChart runs).map ChartEntry.gradient).Nodup := by
  have hperm : ((getPaceByGradientChart runs).map ChartEntry.gradient).Perm
      ((buildGradientMap [] (allBins runs)).map Prod.fst) := by
    have h1 := (getPaceByGradientChart_perm runs).map ChartEntry.gradient
    have h2 : ((buildGradientMap [] (allBins runs)).map toChartEntry).map
        ChartEntry.gradient = (buildGradientMap [] (allBins runs)).map
          Prod.fst := by
      rw [List.map_map]
      rfl
    rwa [h2] at h1
  exact hperm.nodup_iff.mpr
    (buildGradientMap_keys_nodup (allBins runs) [] (by simp))

/-- Per-entry characterization of the chart: every entry's group is nonempty
and carries the group's size and weighted pace. -/
theorem chart_entry_spec (runs : List Run) :
    ∀ e ∈ getPaceByGradientChart runs,
      groupBins runs e.gradient ≠ []
      ∧ e.binCount = (groupBins runs e.gradient).length
      ∧ e.avgPace =
          (((groupBins runs e.gradient).map ABin.timeInSeconds).sum / 60)
            / (((groupBins runs e.gradient).map ABin.distance).sum / 1000) := by
  intro e he
  have hnd : ((buildGradientMap [] (allBins runs)).map Prod.fst).Nodup :=
    buildGradientMap_keys_nodup (allBins runs) [] (by simp)
  have hlk : lookupG (buildGradientMap [] (allBins runs)) e.gradient =
      foldTotals none (groupBins runs e.gradient) :=
    buildGradientMap_lookup e.gradient (allBins runs) []
  have hmem : e ∈ (buildGradientMap [] (allBins runs)).map toChartEntry :=
    (getPaceByGradientChart_perm runs).mem_iff.mp he
  obtain ⟨kv, hkv, hkve⟩ := List.mem_map.mp hmem
  have hk1 : kv.1 = e.gradient := by rw [← hkve]; rfl
  have hsome := lookupG_of_mem_nodup _ hnd kv hkv
  rw [hk1, hlk] at hsome
  have hgr : groupBins runs e.gradient ≠ [] := by
    intro hnil
    rw [hnil] at hsome
    simp [foldTotals] at hsome
  refine ⟨hgr, ?_⟩
  rw [foldTotals_none _ hgr] at hsome
  have hkv2 := Option.some.inj hsome.symm
  have hbc : e.binCount = kv.2.binCount := by rw [← hkve]; rfl
  have hap : e.avgPace = (kv.2.totalTime / 60) / (kv.2.totalDistance / 1000) := by
    rw [← hkve]; rfl
  rw [hbc, hap, hkv2]
  exact ⟨rfl, rfl⟩

/-- Every chart pace is positive: groups are nonempty and their bins have
positive distance and time. -/
theorem chart_avgPace_pos (runs : List Run) :
    ∀ e ∈ getPaceByGradientChart runs, 0 < e.avgPace := by
  intro e he
  obtain ⟨hne, -, hp⟩ := chart_entry_spec runs e he
  have hposb : ∀ b ∈ groupBins runs e.gradient,
      0 < b.distance ∧ 0 < b.timeInSeconds := by
    intro b hb
    have := List.of_mem_filter hb
    simp only [chartQual, Bool.and_eq_true, decide_eq_true_eq] at this
    exact ⟨this.1.1, this.1.2⟩
  have htime : 0 < ((groupBins runs e.gradient).map ABin.timeInSeconds).sum := by
    apply List.sum_pos
    · intro q hq
      obtain ⟨b, hb, rfl⟩ := List.mem_map.mp hq
      exact (hposb b hb).2
    · intro hmnil
      exact hne (List.map_eq_nil.mp hmnil)
  have hdist : 0 < ((groupBins runs e.gradient).map ABin.distance).sum := by
    apply List.sum_pos
    · intro q hq
      obtain ⟨b, hb, rfl⟩ := List.mem_map.mp hq
      exact (hposb b hb).1
    · intro hmnil
      exact hne (List.map_eq_nil.mp hmnil)
  rw [hp]
  positivity

theorem gkey_mid_ne_neg (z : ℤ) : (GKey.mid z = GKey.negExtreme) ↔ False := by
  constructor
  · intro h; cases h
  · intro h; cases h

theorem gkey_mid_ne_pos (z : ℤ) : (GKey.mid z = GKey.posExtreme) ↔ False := by
  constructor
  · intro h; cases h
  · intro h; cases h

theorem gkey_pos_ne_neg : (GKey.posExtreme = GKey.negExtreme) ↔ False := by
  constructor
  · intro h; cases h
  · intro h; cases h

theorem gkey_neg_ne_pos : (GKey.negExtreme = GKey.posExtreme) ↔ False := by
  constructor
  · intro h; cases h
  · intro h; cases h

/-- On entries with distinct gradients whose fields are chart-shaped, the
`part_004` final comparator is exactly the ascending order of `adjRank`. -/
theorem adjLe_iff_rank (a b : AdjEntry)
    (hra : ∀ z : ℤ, a.gradient = .mid z → -34 ≤ z ∧ z ≤ 34)
    (hrb : ∀ z : ℤ, b.gradient = .mid z → -34 ≤ z ∧ z ≤ 34)
    (hva : a.gradientValue = gradientValueOf a.gradient)
    (hvb : b.gradientValue = gradientValueOf b.gradient)
    (hne : a.gradient ≠ b.gradient) :
    (adjLe a b = true ↔ adjRank a ≤ adjRank b) := by
  unfold adjLe adjRank
  rcases hga : a.gradient with - | - | za <;> rcases hgb : b.gradient with - | - | zb
  · rw [hga, hgb] at hne
    exact absurd rfl hne
  · simp
  · obtain ⟨h1b, h2b⟩ := hrb zb hgb
    simp
    omega
  · simp [gkey_pos_ne_neg, gkey_neg_ne_pos]
  · rw [hga, hgb] at hne
    exact absurd rfl hne
  · obtain ⟨h1b, h2b⟩ := hrb zb hgb
    simp [gkey_pos_ne_neg, gkey_mid_ne_neg, gkey_mid_ne_pos]
    omega
  · obtain ⟨h1a, h2a⟩ := hra za hga
    simp [gkey_mid_ne_neg, gkey_mid_ne_pos]
    omega
  · obtain ⟨h1a, h2a⟩ := hra za hga
    simp [gkey_mid_ne_neg, gkey_mid_ne_pos, gkey_neg_ne_pos]
    omega
  · rw [hga] at hva
    rw [hgb] at hvb
    simp [gkey_mid_ne_neg, gkey_mid_ne_pos, hva, hvb, gradientValueOf]

/-- A qualifying near-zero key parses to an integer in [−2, 2]. -/
theorem nearZeroKey_parse (e : ChartEntry) (h : nearZeroKey e = true) :
    ∃ z : ℤ, parseIntKey e.gradient = some z ∧ -2 ≤ z ∧ z ≤ 2 := by
  revert h
  unfold nearZeroKey
  rcases hp : parseIntKey e.gradient with - | z
  · intro h; cases h
  · intro h
    exact ⟨z, rfl, by simpa using h⟩

/-- Claim C8 as stated (personal-factor part): every row's personal
adjustment factor equals the row's pace divided by the baseline pace. -/
def ClaimC8 : Prop :=
  ∀ (runs : List Run) (bp : ℚ),
    (getGradeAdjustmentAnalysis_v4 runs).2 = some bp → 0 < bp →
    ∀ e ∈ (getGradeAdjustmentAnalysis_v4 runs).1,
      e.personalAdjustment = e.avgPace / bp

/-- Fixture for C8: one run with a gradient-0 group of pace 3 and a
gradient-5 group of pace 4, so the 5 % row's exact ratio is 4/3. -/
def c8runs : List Run :=
  [⟨[⟨0, 180, 1000, none, none, none⟩, ⟨5, 240, 1000, none, none, none⟩]⟩]

/-- Claim C8 is false on the code: the personal factor is stored as
`parseFloat(factor.toFixed(4))`, so the gradient-5 row of the fixture holds
1.3333, not the exact ratio 4/3. -/
theorem C8_counterexample : ¬ ClaimC8 := by
  intro h
  have hbp : (getGradeAdjustmentAnalysis_v4 c8runs).2 = some 3 := by
    norm_num [getGradeAdjustmentAnalysis_v4, baselinePace,
      getPaceByGradientChart, buildGradientMap, gmapUpdate, addTotals,
      allBins, chartQual, keyOf, jsRound, objEntriesOrder, jsSort, insertLe,
      isIdxKey, idxKeyLe, toChartEntry, chartCmpLe, parseIntKey, List.find?,
      c8runs]
  have hmap : ((getGradeAdjustmentAnalysis_v4 c8runs).1).map
      (fun e => (e.gradient, e.personalAdjustment, e.avgPace)) =
      [(GKey.mid 0, 1, 3), (GKey.mid 5, 13333/10000, 4)] := by
    norm_num [getGradeAdjustmentAnalysis_v4, baselinePace,
      getPaceByGradientChart, buildGradientMap, gmapUpdate, addTotals,
      allBins, chartQual, keyOf, jsRound, objEntriesOrder, jsSort, insertLe,
      isIdxKey, idxKeyLe, toChartEntry, chartCmpLe, parseIntKey, List.find?,
      mkAdjEntry, gradientValueOf, jsToFixed4, adjLe, c8runs]
    norm_num [gkey_mid_ne_neg, gkey_mid_ne_pos]
  rcases hl : (getGradeAdjustmentAnalysis_v4 c8runs).1 with - | ⟨e1, l1⟩
  · rw [hl] at hmap
    simp at hmap
  · rcases l1 with - | ⟨e2, l2⟩
    · rw [hl] at hmap
      simp at hmap
    · rcases l2 with - | ⟨e3, l3⟩
      · rw [hl] at hmap
        simp only [List.map_cons, List.map_nil, List.cons.injEq,
          Prod.mk.injEq, and_true] at hmap
        obtain ⟨-, ⟨-, hpa, hap⟩⟩ := hmap
        have := h c8runs 3 hbp (by norm_num) e2
          (by rw [hl]; exact List.mem_cons_of_mem e1 (List.mem_cons_self e2 []))
        rw [hpa, hap] at this
        norm_num at this
      · rw [hl] at hmap
        simp at hmap

/-- Amended claim C8, proved on the `part_004` revision of
`getGradeAdjustmentAnalysis` (in the `part_003` revision the output order is
inherited from the chart sort, whose sentinel comparisons use the mismatched
literals `'<-35'`/`'>35'`, so the sentinel placement is not guaranteed
there).  (1) The baseline is the gradient-0 group's pace when that group
exists; (2) otherwise the pace of a group of minimal absolute gradient among
the groups within −2..+2 degrees; (3) otherwise the average of all group
paces.  (4) Every row's personal adjustment factor equals the row's pace
divided by the baseline pace, rounded through `toFixed(4)` — not the exact
ratio.  (5) Rows are ordered ascending by gradient with the extreme
sentinel keys placed first (rank −36) and last (rank 36). -/
theorem C8_amended (runs : List Run) :
    ((∃ e ∈ getPaceByGradientChart runs, e.gradient = GKey.mid 0) →
      ∃ e ∈ getPaceByGradientChart runs, e.gradient = GKey.mid 0
        ∧ (getGradeAdjustmentAnalysis_v4 runs).2 = some e.avgPace)
    ∧ ((¬ ∃ e ∈ getPaceByGradientChart runs, e.gradient = GKey.mid 0) →
        (∃ e ∈ getPaceByGradientChart runs, nearZeroKey e = true) →
        ∃ e ∈ getPaceByGradientChart runs, nearZeroKey e = true
          ∧ (∀ e' ∈ getPaceByGradientChart runs, nearZeroKey e' = true →
              ((parseIntKey e.gradient).getD 0).natAbs
                ≤ ((parseIntKey e'.gradient).getD 0).natAbs)
          ∧ (getGradeAdjustmentAnalysis_v4 runs).2 = some e.avgPace)
    ∧ ((¬ ∃ e ∈ getPaceByGradientChart runs, e.gradient = GKey.mid 0) →
        (¬ ∃ e ∈ getPaceByGradientChart runs, nearZeroKey e = true) →
        getPaceByGradientChart runs ≠ [] →
        (getGradeAdjustmentAnalysis_v4 runs).2 =
          some (((getPaceByGradientChart runs).map ChartEntry.avgPace).sum
            / ((getPaceByGradientChart runs).length : ℚ)))
    ∧ (∀ bp : ℚ, (getGradeAdjustmentAnalysis_v4 runs).2 = some bp → 0 < bp →
        ∀ e ∈ (getGradeAdjustmentAnalysis_v4 runs).1,
          e.personalAdjustment = jsToFixed4 (e.avgPace / bp)
            ∧ ∃ item ∈ getPaceByGradientChart runs, e.avgPace = item.avgPace)
    ∧ (getGradeAdjustmentAnalysis_v4 runs).1.Pairwise
        (fun a b => adjRank a ≤ adjRank b) := by
  have hv2 : (getGradeAdjustmentAnalysis_v4 runs).2 =
      baselinePace (getPaceByGradientChart runs) := rfl
  have hv1 : (getGradeAdjustmentAnalysis_v4 runs).1 =
      jsSort adjLe ((getPaceByGradientChart runs).map
        (mkAdjEntry (baselinePace (getPaceByGradientChart runs)))) := rfl
  refine ⟨?_, ?_, ?_, ?_, ?_⟩
  · rintro ⟨e, he, hek⟩
    have hfs : ((getPaceByGradientChart runs).find?
        (fun e => e.gradient == GKey.mid 0)).isSome :=
      List.find?_isSome.mpr ⟨e, he, by simp [hek]⟩
    obtain ⟨e0, hfind⟩ := Option.isSome_iff_exists.mp hfs
    have hgrad : e0.gradient = GKey.mid 0 := by
      simpa using List.find?_some hfind
    refine ⟨e0, List.mem_of_find?_eq_some hfind, hgrad, ?_⟩
    rw [hv2]
    unfold baselinePace
    rw [hfind]
  · intro h0 hnear
    have hfn : (getPaceByGradientChart runs).find?
        (fun e => e.gradient == GKey.mid 0) = none := by
      rw [List.find?_eq_none]
      intro x hx hpx
      exact h0 ⟨x, hx, by simpa using hpx⟩
    obtain ⟨en, hen, hkn⟩ := hnear
    have henf : en ∈ (getPaceByGradientChart runs).filter nearZeroKey :=
      List.mem_filter.mpr ⟨hen, hkn⟩
    have hnodchart : (getPaceByGradientChart runs).Nodup :=
      (chart_gradients_nodup runs).of_map
    have hnodfil : ((getPaceByGradientChart runs).filter nearZeroKey).Nodup :=
      hnodchart.filter _
    have hpw := jsSort_pairwise nearLe
      (fun e => (((parseIntKey e.gradient).getD 0).natAbs : ℤ))
      ((getPaceByGradientChart runs).filter nearZeroKey) hnodfil ?_
    · rcases hS : jsSort nearLe
          ((getPaceByGradientChart runs).filter nearZeroKey) with - | ⟨e0, tail⟩
      · exfalso
        have := (jsSort_perm nearLe
          ((getPaceByGradientChart runs).filter nearZeroKey)).length_eq
        rw [hS] at this
        exact List.ne_nil_of_mem henf (List.length_eq_zero.mp this.symm)
      · have he0f : e0 ∈ (getPaceByGradientChart runs).filter nearZeroKey :=
          (jsSort_perm nearLe _).mem_iff.mp (hS ▸ List.mem_cons_self e0 tail)
        rw [hS] at hpw
        obtain ⟨hhead, -⟩ := List.pairwise_cons.mp hpw
        refine ⟨e0, (List.mem_filter.mp he0f).1, (List.mem_filter.mp he0f).2,
          ?_, ?_⟩
        · intro e' he' hk'
          have he'f : e' ∈ (getPaceByGradientChart runs).filter nearZeroKey :=
            List.mem_filter.mpr ⟨he', hk'⟩
          have he's : e' ∈ jsSort nearLe
              ((getPaceByGradientChart runs).filter nearZeroKey) :=
            (jsSort_perm nearLe _).mem_iff.mpr he'f
          rw [hS] at he's
          rcases List.mem_cons.mp he's with rfl | he't
          · exact le_refl _
          · have h := hhead e' he't
            simp only at h
            exact_mod_cast h
        · rw [hv2]
          unfold baselinePace
          rw [hfn, hS]
    · intro a ha b hb hab
      obtain ⟨za, hpa, -, -⟩ := nearZeroKey_parse a (List.mem_filter.mp ha).2
      obtain ⟨zb, hpb, -, -⟩ := nearZeroKey_parse b (List.mem_filter.mp hb).2
      simp only [nearLe, hpa, hpb, decide_eq_true_eq, Option.getD_some]
      exact Nat.cast_le.symm
  · intro h0 hnear hne
    have hfn : (getPaceByGradientChart runs).find?
        (fun e => e.gradient == GKey.mid 0) = none := by
      rw [List.find?_eq_none]
      intro x hx hpx
      exact h0 ⟨x, hx, by simpa using hpx⟩
    have hfil : (getPaceByGradientChart runs).filter nearZeroKey = [] := by
      rw [List.filter_eq_nil]
      intro e he hk
      exact hnear ⟨e, he, hk⟩
    have hfil2 : ((getPaceByGradientChart runs).filter
        fun e => decide (e.avgPace ≠ 0)) = getPaceByGradientChart runs := by
      rw [List.filter_eq_self]
      intro e he
      simpa using ne_of_gt (chart_avgPace_pos runs e he)
    have hlen : ((getPaceByGradientChart runs).map ChartEntry.avgPace).length ≠ 0 := by
      simpa [List.length_eq_zero] using hne
    rw [hv2]
    unfold baselinePace
    rw [hfn, hfil]
    show (if ((((getPaceByGradientChart runs).filter
        fun e => decide (e.avgPace ≠ 0)).map ChartEntry.avgPace).length ≠ 0)
      then _ else none) = _
    rw [hfil2, if_pos hlen]
    simp
  · intro bp hbp hpos e he
    rw [hv1] at he
    have hmem : e ∈ (getPaceByGradientChart runs).map
        (mkAdjEntry (baselinePace (getPaceByGradientChart runs))) :=
      (jsSort_perm adjLe _).mem_iff.mp he
    obtain ⟨item, hitem, rfl⟩ := List.mem_map.mp hmem
    rw [hv2] at hbp
    constructor
    · show jsToFixed4 (match baselinePace (getPaceByGradientChart runs) with
        | some bp => if bp > 0 then item.avgPace / bp else 1
        | none => 1) = _
      rw [hbp]
      simp only [if_pos hpos]
      rfl
    · exact ⟨item, hitem, rfl⟩
  · rw [hv1]
    have hndgrad : (((getPaceByGradientChart runs).map
        (mkAdjEntry (baselinePace (getPaceByGradientChart runs)))).map
          AdjEntry.gradient).Nodup := by
      rw [List.map_map]
      have : (AdjEntry.gradient ∘ mkAdjEntry
          (baselinePace (getPaceByGradientChart runs)))
          = ChartEntry.gradient := rfl
      rw [this]
      exact chart_gradients_nodup runs
    have hnd : ((getPaceByGradientChart runs).map
        (mkAdjEntry (baselinePace (getPaceByGradientChart runs)))).Nodup :=
      hndgrad.of_map
    refine jsSort_pairwise adjLe adjRank _ hnd ?_
    intro a ha b hb hab
    obtain ⟨ia, hia, rfl⟩ := List.mem_map.mp ha
    obtain ⟨ib, hib, rfl⟩ := List.mem_map.mp hb
    have hkne : (mkAdjEntry (baselinePace (getPaceByGradientChart runs)) ia).gradient
        ≠ (mkAdjEntry (baselinePace (getPaceByGradientChart runs)) ib).gradient := by
      intro hk
      exact hab (eq_of_mem_map_nodup AdjEntry.gradient _ hndgrad _ ha _ hb hk)
    refine adjLe_iff_rank _ _ ?_ ?_ rfl rfl hkne
    · intro z hz
      exact chart_mid_range runs ia hia z hz
    · intro z hz
      exact chart_mid_range runs ib hib z hz

/-- Witness for `C8_amended` on the fixture: the gradient-0 group exists and
its pace 3 is the baseline. -/
theorem C8_amended_witness :
    ∃ e ∈ getPaceByGradientChart c8runs, e.gradient = GKey.mid 0
      ∧ (getGradeAdjustmentAnalysis_v4 c8runs).2 = some e.avgPace := by
  refine (C8_amended c8runs).1 ?_
  have hmap : (getPaceByGradientChart c8runs).map (fun e => e.gradient)
      = [GKey.mid 0, GKey.mid 5] := by
    norm_num [getPaceByGradientChart, buildGradientMap, gmapUpdate, addTotals,
      allBins, chartQual, keyOf, jsRound, objEntriesOrder, jsSort, insertLe,
      isIdxKey, idxKeyLe, toChartEntry, chartCmpLe, parseIntKey, c8runs]
  rcases hl : getPaceByGradientChart c8runs with - | ⟨e1, l1⟩
  · rw [hl] at hmap
    simp at hmap
  · rw [hl] at hmap
    rcases l1 with - | ⟨e2, l2⟩
    · simp at hmap
    · simp only [List.map_cons, List.cons.injEq] at hmap
      exact ⟨e1, List.mem_cons_self e1 _, hmap.1⟩

/-- `getBinSummary(bins)`: aggregated totals of one activity's bins.  `null`
(no bins, or no bin with positive distance) is `none`. -/
structure BinSummary where
  totalBins : ℕ
  validBins : ℕ
  totalDistance : ℚ
  totalTime : ℚ
  totalElevation : ℤ
  avgPace : Option ℚ
  avgHeartRate : Option ℤ
  maxHeartRate : Option ℚ
  heartRateDataCoverage : ℚ
deriving DecidableEq, Repr

/-- `getBinSummary` (identical in both repository revisions).  A bin counts
as carrying heart rate when its `avgHeartRate` is truthy; such a bin always
has a `maxHeartRate`, whose JS `null` would otherwise enter `Math.max` —
modelled by `getD 0`, unreached. -/
def getBinSummary (bins : List Bin) : Option BinSummary :=
  if bins.isEmpty then none
  else
    let validBins := bins.filter fun b => decide (b.distance > 0)
    if validBins.isEmpty then none
    else
      let totalDistance := (validBins.map Bin.distance).sum
      let totalTime := (validBins.map Bin.timeInSeconds).sum
      let totalElevation := (validBins.map fun b => max 0 b.elevationChange).sum
      let binsWithHR := validBins.filter fun b =>
        match b.avgHeartRate with
        | some v => decide (v ≠ 0)
        | none => false
      some
        { totalBins := bins.length
          validBins := validBins.length
          totalDistance := jsToFixed2 (totalDistance / 1000)
          totalTime := totalTime
          totalElevation := jsRound totalElevation
          avgPace := if totalDistance > 0 ∧ totalTime > 0 then
              some ((totalTime / 60) / (totalDistance / 1000)) else none
          avgHeartRate := if binsWithHR.isEmpty then none else
              some (jsRound (((binsWithHR.map fun b =>
                ((b.avgHeartRate.getD 0 : ℤ) : ℚ)).sum) / binsWithHR.length))
          maxHeartRate := listMax (binsWithHR.map fun b => b.maxHeartRate.getD 0)
          heartRateDataCoverage := (binsWithHR.length : ℚ) / validBins.length }

/-- One uploaded file of a batch, with the outcomes of the out-of-scope
collaborators `processFile` (a per-file `{error}` object or a thrown and
caught exception, both as `.error`; success as `.ok`) and `getRoutePoints`
(`null` or a normalized point list). -/
structure BatchFile where
  originalname : String
  parse : Except String Unit
  route : Option (List Point)
deriving Repr

/-- One per-file error entry `{filename, error}`. -/
structure BatchError where
  filename : String
  error : String
deriving DecidableEq, Repr

/-- One per-file success entry: `{...result.stats, binLength, bins,
binSummary, routePointCount, hasHeartRateData, fileIndex}` (the spread stats
fields, produced by the out-of-scope parser, are represented by the
filename). -/
structure BatchResult where
  filename : String
  binLength : ℚ
  bins : List Bin
  binSummary : Option BinSummary
  routePointCount : ℕ
  hasHeartRateData : Bool
  fileIndex : ℕ
deriving DecidableEq, Repr

/-- A server-sent event of `GET /api/process-batch/:batchId`. -/
inductive BEvent where
  | progress (fileIndex totalFiles : ℕ) (progressPercent : ℤ)
      (filesProcessed : ℕ) (currentFile : String)
      (resultsSoFar : List BatchResult) (errorsSoFar : List BatchError)
  | complete (totalFiles successfulFiles failedFiles : ℕ)
      (results : List BatchResult) (errors : List BatchError)
deriving DecidableEq, Repr

/-- Whether an event is a progress event. -/
def BEvent.isProgress : BEvent → Bool
  | .progress .. => true
  | _ => false

/-- Whether an event is the terminal complete event. -/
def BEvent.isComplete : BEvent → Bool
  | .complete .. => true
  | _ => false

/-- Processing of one file of the batch (the body of the `for` loop):
a `processFile` error (or caught exception) becomes an error entry; a success
is binned (`routePoints ? getAnalysisBins(routePoints, binLength) : []`) and
becomes a result entry carrying its file index. -/
def processBatchFile (dist : Point → Point → ℚ) (binLength : ℚ) (i : ℕ)
    (f : BatchFile) : BatchResult ⊕ BatchError :=
  match f.parse with
  | .error e => .inr ⟨f.originalname, e⟩
  | .ok _ =>
    let bins :=
      match f.route with
      | some routePoints => getAnalysisBins dist routePoints binLength none none true
      | none => []
    .inl ⟨f.originalname, binLength, bins, getBinSummary bins,
      (match f.route with | some rp => rp.length | none => 0),
      bins.any fun b => b.avgHeartRate ≠ none, i⟩

/-- The per-file loop: after every file — success or failure — one progress
event is emitted carrying the running result and error lists. -/
def batchLoop (dist : Point → Point → ℚ) (binLength : ℚ) (totalFiles : ℕ) :
    ℕ → List BatchFile → List BatchResult → List BatchError →
    List BEvent × List BatchResult × List BatchError
  | _, [], res, errs => ([], res, errs)
  | i, f :: fs, res, errs =>
    let step := processBatchFile dist binLength i f
    let res' := match step with | .inl r => res ++ [r] | .inr _ => res
    let errs' := match step with | .inl _ => errs | .inr e => errs ++ [e]
    let ev := BEvent.progress (i + 1) totalFiles
      (jsRound (((i + 1 : ℚ) / totalFiles) * 100))
      (res'.length + errs'.length) f.originalname res' errs'
    let rest := batchLoop dist binLength totalFiles (i + 1) fs res' errs'
    (ev :: rest.1, rest.2)

/-- The stored state of one uploaded batch. -/
structure BatchData where
  files : List BatchFile
  binLength : ℚ
  timestamp : ℤ
deriving Repr

/-- The event stream of `GET /api/process-batch/:batchId` on a found batch:
an initial zero-progress event, one progress event per file, then the
terminal complete event. -/
def processBatchEvents (dist : Point → Point → ℚ) (bd : BatchData) :
    List BEvent :=
  let totalFiles := bd.files.length
  let r := batchLoop dist bd.binLength totalFiles 0 bd.files [] []
  BEvent.progress 0 totalFiles 0 0 "Starting analysis..." [] []
    :: r.1 ++ [BEvent.complete totalFiles r.2.1.length r.2.2.length r.2.1 r.2.2]

/-- Lookup in the in-memory `batchFiles` store. -/
def lookupStore : List (String × BatchData) → String → Option BatchData
  | [], _ => none
  | (k, v) :: rest, batchId =>
    if k = batchId then some v else lookupStore rest batchId

/-- `delete req.app.locals.batchFiles[batchId]` (object keys are unique). -/
def removeStore (store : List (String × BatchData)) (batchId : String) :
    List (String × BatchData) :=
  store.filter fun kv => kv.1 ≠ batchId

/-- The whole route: a missing batch id answers 404 with no events; a found
batch streams its events and its store entry is deleted after the terminal
event (the temporal "after" is control flow; the model returns the final
store). -/
def processBatchRoute (dist : Point → Point → ℚ)
    (store : List (String × BatchData)) (batchId : String) :
    List BEvent × List (String × BatchData) :=
  match lookupStore store batchId with
  | none => ([], store)
  | some bd => (processBatchEvents dist bd, removeStore store batchId)

/-- The successful per-file entries of a batch, in file order, with their
file indices. -/
def batchResultsSpec (dist : Point → Point → ℚ) (binLength : ℚ)
    (files : List BatchFile) : List BatchResult :=
  files.enum.filterMap fun p =>
    match processBatchFile dist binLength p.1 p.2 with
    | .inl r => some r
    | .inr _ => none

/-- The per-file error entries of a batch, in file order. -/
def batchErrorsSpec (dist : Point → Point → ℚ) (binLength : ℚ)
    (files : List BatchFile) : List BatchError :=
  files.enum.filterMap fun p =>
    match processBatchFile dist binLength p.1 p.2 with
    | .inl _ => none
    | .inr e => some e

theorem batchLoop_spec (dist : Point → Point → ℚ) (binLength : ℚ)
    (totalFiles : ℕ) :
    ∀ (fs : List BatchFile) (i : ℕ) (res : List BatchResult)
      (errs : List BatchError),
      (batchLoop dist binLength totalFiles i fs res errs).1.length = fs.length
      ∧ (∀ ev ∈ (batchLoop dist binLength totalFiles i fs res errs).1,
          ev.isProgress = true)
      ∧ (batchLoop dist binLength totalFiles i fs res errs).2.1
          = res ++ (List.enumFrom i fs).filterMap (fun p =>
              match processBatchFile dist binLength p.1 p.2 with
              | .inl r => some r
              | .inr _ => none)
      ∧ (batchLoop dist binLength totalFiles i fs res errs).2.2
          = errs ++ (List.enumFrom i fs).filterMap (fun p =>
              match processBatchFile dist binLength p.1 p.2 with
              | .inl _ => none
              | .inr e => some e) := by
  intro fs
  induction fs with
  | nil =>
    intro i res errs
    simp [batchLoop, List.enumFrom]
  | cons f fs ih =>
    intro i res errs
    rcases hstep : processBatchFile dist binLength i f with r | e
    · obtain ⟨ih1, ih2, ih3, ih4⟩ := ih (i + 1) (res ++ [r]) errs
      refine ⟨?_, ?_, ?_, ?_⟩
      · simp [batchLoop, hstep, ih1]
      · intro ev hev
        simp only [batchLoop, hstep] at hev
        rcases List.mem_cons.mp hev with rfl | hev
        · rfl
        · exact ih2 ev hev
      · simp only [batchLoop, hstep, List.enumFrom, List.filterMap_cons, ih3]
        simp
      · simp only [batchLoop, hstep, List.enumFrom, List.filterMap_cons, ih4]
    · obtain ⟨ih1, ih2, ih3, ih4⟩ := ih (i + 1) res (errs ++ [e])
      refine ⟨?_, ?_, ?_, ?_⟩
      · simp [batchLoop, hstep, ih1]
      · intro ev hev
        simp only [batchLoop, hstep] at hev
        rcases List.mem_cons.mp hev with rfl | hev
        · rfl
        · exact ih2 ev hev
      · simp only [batchLoop, hstep, List.enumFrom, List.filterMap_cons, ih3]
      · simp only [batchLoop, hstep, List.enumFrom, List.filterMap_cons, ih4]
        simp

theorem filterMap_split_length (dist : Point → Point → ℚ) (binLength : ℚ) :
    ∀ ps : List (ℕ × BatchFile),
      (ps.filterMap (fun p =>
          match processBatchFile dist binLength p.1 p.2 with
          | .inl r => some r
          | .inr _ => none)).length
        + (ps.filterMap (fun p =>
            match processBatchFile dist binLength p.1 p.2 with
            | .inl _ => none
            | .inr e => some e)).length
        = ps.length := by
  intro ps
  induction ps with
  | nil => rfl
  | cons p ps ih =>
    rcases hstep : processBatchFile dist binLength p.1 p.2 with r | e <;>
      simp [List.filterMap_cons, hstep] <;> omega

theorem lookupStore_removeStore (store : List (String × BatchData))
    (batchId : String) :
    lookupStore (removeStore store batchId) batchId = none := by
  induction store with
  | nil => rfl
  | cons kv rest ih =>
    by_cases hk : kv.1 = batchId
    · simp [removeStore, List.filter_cons, hk] at ih ⊢
      exact ih
    · simp [removeStore, List.filter_cons, hk, lookupStore] at ih ⊢
      exact ih

/-- Claim C5 as stated: a found batch of N files streams exactly N progress
events plus one terminal event, and the stored job state is discarded. -/
def ClaimC5 : Prop :=
  ∀ (dist : Point → Point → ℚ) (store : List (String × BatchData))
    (batchId : String) (bd : BatchData),
    lookupStore store batchId = some bd →
    (processBatchRoute dist store batchId).1.countP BEvent.isProgress
        = bd.files.length
    ∧ (processBatchRoute dist store batchId).1.countP BEvent.isComplete = 1
    ∧ lookupStore (processBatchRoute dist store batchId).2 batchId = none

/-- A stored batch of three files whose second file fails to parse. -/
def c5files : List BatchFile :=
  [⟨"a.gpx", .ok (), none⟩,
    ⟨"b.fit", .error "FIT parsing failed", none⟩,
    ⟨"c.gpx", .ok (), none⟩]

/-- The store holding the three-file batch under id `b1`. -/
def c5store : List (String × BatchData) := [("b1", ⟨c5files, 50, 0⟩)]

/-- Claim C5 is false on the code: before the loop the endpoint writes an
initial `type: 'progress'` event (`fileIndex: 0`, "Starting analysis..."),
so the 3-file batch emits 4 progress events, not 3. -/
theorem C5_counterexample : ¬ ClaimC5 := by
  intro h
  have hc := (h (constDist 0) c5store "b1" ⟨c5files, 50, 0⟩
    (by simp [lookupStore, c5store])).1
  have hev : (processBatchRoute (constDist 0) c5store "b1").1.countP
      BEvent.isProgress = 4 := by
    simp [processBatchRoute, lookupStore, c5store, processBatchEvents,
      batchLoop, processBatchFile, c5files, jsRound, BEvent.isProgress,
      List.countP_cons, getAnalysisBins, getBinSummary]
  rw [hev] at hc
  simp [c5files] at hc

/-- Amended claim C5: a found batch of N files streams N+1 progress events —
an initial zero-progress event before the first file, then one after every
file whether it succeeded or failed — plus one terminal complete event (N+2
events in total); the terminal event carries the per-file successes and the
per-file error entries (one entry per failing file, in file order — a
failure never aborts the batch, and successes plus errors account for all N
files); the stored job state is discarded afterwards. -/
theorem C5_amended (dist : Point → Point → ℚ)
    (store : List (String × BatchData)) (batchId : String) (bd : BatchData)
    (h : lookupStore store batchId = some bd) :
    (processBatchRoute dist store batchId).1.countP BEvent.isProgress
        = bd.files.length + 1
    ∧ (processBatchRoute dist store batchId).1.length = bd.files.length + 2
    ∧ (processBatchRoute dist store batchId).1.getLast?
        = some (BEvent.complete bd.files.length
            (batchResultsSpec dist bd.binLength bd.files).length
            (batchErrorsSpec dist bd.binLength bd.files).length
            (batchResultsSpec dist bd.binLength bd.files)
            (batchErrorsSpec dist bd.binLength bd.files))
    ∧ (batchResultsSpec dist bd.binLength bd.files).length
        + (batchErrorsSpec dist bd.binLength bd.files).length
        = bd.files.length
    ∧ lookupStore (processBatchRoute dist store batchId).2 batchId = none := by
  obtain ⟨h1, h2, h3, h4⟩ := batchLoop_spec dist bd.binLength
    bd.files.length bd.files 0 [] []
  have hroute : processBatchRoute dist store batchId
      = (processBatchEvents dist bd, removeStore store batchId) := by
    unfold processBatchRoute
    rw [h]
  have hres : (batchLoop dist bd.binLength bd.files.length 0 bd.files
      [] []).2.1 = batchResultsSpec dist bd.binLength bd.files := by
    rw [h3]
    rfl
  have herr : (batchLoop dist bd.binLength bd.files.length 0 bd.files
      [] []).2.2 = batchErrorsSpec dist bd.binLength bd.files := by
    rw [h4]
    rfl
  have hevs : processBatchEvents dist bd
      = BEvent.progress 0 bd.files.length 0 0 "Starting analysis..." [] []
        :: (batchLoop dist bd.binLength bd.files.length 0 bd.files [] []).1
        ++ [BEvent.complete bd.files.length
            (batchResultsSpec dist bd.binLength bd.files).length
            (batchErrorsSpec dist bd.binLength bd.files).length
            (batchResultsSpec dist bd.binLength bd.files)
            (batchErrorsSpec dist bd.binLength bd.files)] := by
    simp only [processBatchEvents]
    rw [hres, herr]
  refine ⟨?_, ?_, ?_, ?_, ?_⟩
  · rw [hroute]
    show (processBatchEvents dist bd).countP _ = _
    rw [hevs]
    rw [List.countP_append, List.countP_cons]
    have hall : (batchLoop dist bd.binLength bd.files.length 0 bd.files
        [] []).1.countP BEvent.isProgress
        = (batchLoop dist bd.binLength bd.files.length 0 bd.files
          [] []).1.length := by
      rw [List.countP_eq_length]
      intro ev hev
      exact h2 ev hev
    rw [hall, h1]
    simp [BEvent.isProgress, List.countP_cons, BEvent.isComplete]
  · rw [hroute]
    show (processBatchEvents dist bd).length = _
    rw [hevs]
    simp [h1]
  · rw [hroute]
    show (processBatchEvents dist bd).getLast? = _
    rw [hevs, List.getLast?_concat]
  · have := filterMap_split_length dist bd.binLength bd.files.enum
    unfold batchResultsSpec batchErrorsSpec
    rw [this]
    exact bd.files.enum_length
  · rw [hroute]
    exact lookupStore_removeStore store batchId

/-- Witness for `C5_amended` on the three-file fixture: four progress events
stream and the job entry is gone afterwards. -/
theorem C5_amended_witness :
    (processBatchRoute (constDist 0) c5store "b1").1.countP BEvent.isProgress
        = 3 + 1
    ∧ lookupStore (processBatchRoute (constDist 0) c5store "b1").2 "b1"
        = none := by
  have h := C5_amended (constDist 0) c5store "b1" ⟨c5files, 50, 0⟩
    (by simp [lookupStore, c5store])
  exact ⟨h.1, h.2.2.2.2⟩

end RunGrade
